import Mathlib

/-!
Verification of the 2048 board engine and search engine (src/2048.cpp).

The board is a 64-bit word holding sixteen 4-bit exponent nibbles; cell
(row, col) occupies bits [16*row + 4*col, 16*row + 4*col + 4).  We embed the
word as a natural number together with the invariant that it is < 2^64, and
mirror the C++ arithmetic widths explicitly: the score local in Board::move is
int16_t (wrap-around modelled by toInt16), the Node score field is uint16_t
(mod 2^16), and the uint_fast8_t accumulators in calculateSmoothness /
calculateMonotonicity wrap mod 256 (on the target platform uint_fast8_t is
unsigned char).
-/

set_option maxHeartbeats 1000000

namespace Game2048

/-- MoveType enumeration from the source. -/
inductive MoveType where
  | START
  | UP
  | DOWN
  | LEFT
  | RIGHT
  | RAND
  | GAMEOVER
deriving DecidableEq, Repr

/-- Player enumeration: HUMAN slides, RANDOM spawns. -/
inductive Player where
  | HUMAN
  | RANDOM
deriving DecidableEq, Repr

/-- Termination conditions consulted by the search. -/
inductive TerminationCondition where
  | CONTINUE
  | END
  | ABORT
deriving DecidableEq, Repr

/-- The Move class: traversal bounds/steps and the slide unit vector. -/
structure Move where
  rowStart : Int
  rowEnd : Int
  rowDelta : Int
  colStart : Int
  colEnd : Int
  colDelta : Int
  vectorRowDelta : Int
  vectorColDelta : Int
  type : MoveType
deriving DecidableEq, Repr

/-- Move::UP -/
def Move.UP : Move := ⟨0, 4, 1, 0, 4, 1, -1, 0, MoveType.UP⟩
/-- Move::LEFT -/
def Move.LEFT : Move := ⟨0, 4, 1, 0, 4, 1, 0, -1, MoveType.LEFT⟩
/-- Move::DOWN -/
def Move.DOWN : Move := ⟨3, -1, -1, 0, 4, 1, 1, 0, MoveType.DOWN⟩
/-- Move::RIGHT -/
def Move.RIGHT : Move := ⟨0, 4, 1, 3, -1, -1, 0, 1, MoveType.RIGHT⟩
/-- Move::START -/
def Move.START : Move := ⟨0, 4, 1, 0, 4, 1, 0, 0, MoveType.START⟩
/-- Move::RAND -/
def Move.RAND : Move := ⟨0, 4, 1, 0, 4, 1, 0, 0, MoveType.RAND⟩

/-- boardShifts[row][col] = row * 16 + col * 4 (bit offset of the cell's nibble). -/
def shiftOf (r c : Int) : Nat := (16 * r + 4 * c).toNat

/-- boardMasks[row][col] = 0b1111 << shift. -/
def nibbleMask (r c : Int) : Nat := 15 <<< shiftOf r c

/-- Board::getExponentValue: (rawBoard & boardMasks[row][col]) >> boardShifts[row][col]. -/
def getExponentValue (raw : Nat) (r c : Int) : Nat :=
  (raw &&& nibbleMask r c) >>> shiftOf r c

/-- Board::getValue: 0 for an empty cell, else 2 << (exponent - 1) = 2^exponent. -/
def getValue (raw : Nat) (r c : Int) : Nat :=
  let exponent := getExponentValue raw r c
  if exponent = 0 then 0 else 2 <<< (exponent - 1)

/-- Board::setValue: clear the nibble (rawBoard &= ~mask) and, when the exponent is
positive, OR in exponent << shift.  The C++ shift is uint64 arithmetic, hence the
mod 2^64 on the shifted operand. -/
def setValue (raw : Nat) (r c : Int) (e : Nat) : Nat :=
  (raw &&& ((2 ^ 64 - 1) ^^^ nibbleMask r c)) |||
    (if 0 < e then (e <<< shiftOf r c) % 2 ^ 64 else 0)

/-- Board::fillExponents: the while loop writes each nibble of the (pre-zeroed)
values array in row-major order, shifting the word right by 4 each step and
stopping once the remaining word is zero; its net effect is that entry (r, c)
holds nibble 4*(4r+c) of the word, i.e. the cell's exponent. -/
def fillExponents (raw : Nat) : Int → Int → Nat :=
  fun r c => (raw >>> shiftOf r c) &&& 15

/-- The while (board) loop of Board::numFilledSpaces, counting nonzero nibbles
while shifting right by 4.  A 64-bit word is exhausted after 16 shifts, so fuel
16 reproduces the loop exactly on every board < 2^64. -/
def numFilledSpacesAux (board : Nat) : Nat → Nat
  | 0 => 0
  | fuel + 1 =>
    if board = 0 then 0
    else (if board &&& 15 ≠ 0 then 1 else 0) + numFilledSpacesAux (board >>> 4) fuel

/-- Board::numFilledSpaces. -/
def numFilledSpaces (board : Nat) : Nat := numFilledSpacesAux board 16

/-- Board::numEmptySpaces = 16 - numFilledSpaces. -/
def numEmptySpaces (board : Nat) : Nat := 16 - numFilledSpaces board

/-- The while (board) loop of Board::getLargestExponent with its accumulator,
fueled like numFilledSpacesAux. -/
def largestExponentAux (biggest board : Nat) : Nat → Nat
  | 0 => biggest
  | fuel + 1 =>
    if board = 0 then biggest
    else largestExponentAux (max biggest (board &&& 15)) (board >>> 4) fuel

/-- Board::getLargestExponent. -/
def getLargestExponent (board : Nat) : Nat := largestExponentAux 0 board 16

/-- The sixteen cells in row-major order. -/
def cells16 : List (Int × Int) :=
  [(0,0),(0,1),(0,2),(0,3),(1,0),(1,1),(1,2),(1,3),
   (2,0),(2,1),(2,2),(2,3),(3,0),(3,1),(3,2),(3,3)]

/-- In-range predicate for a cell coordinate. -/
def inR (r c : Int) : Prop := 0 ≤ r ∧ r < 4 ∧ 0 ≤ c ∧ c < 4

instance (r c : Int) : Decidable (inR r c) := by unfold inR; infer_instance

/-- Row-direction inner loop of Board::findFinalLocation:
for (r = row + rowDelta; r != maxRow; r += rowDelta).  The loop runs at most
four iterations; the fuel argument (always supplied ≥ 5) makes that explicit,
and the fuel-exhausted branch coincides with the loop-exit return value. -/
def fflRow (raw : Nat) (values : Int → Int → Nat) (merged : Int → Int → Bool)
    (row col rowDelta maxRow : Int) : Int → Nat → Int × Int
  | _, 0 => (maxRow - rowDelta, col)
  | r, fuel + 1 =>
    if r = maxRow then (maxRow - rowDelta, col)
    else
      let v := getExponentValue raw r col
      if ¬ merged r col ∧ v = values row col then (r, col)
      else if v ≠ 0 then (r - rowDelta, col)
      else fflRow raw values merged row col rowDelta maxRow (r + rowDelta) fuel

/-- Column-direction inner loop of Board::findFinalLocation. -/
def fflCol (raw : Nat) (values : Int → Int → Nat) (merged : Int → Int → Bool)
    (row col colDelta maxCol : Int) : Int → Nat → Int × Int
  | _, 0 => (row, maxCol - colDelta)
  | c, fuel + 1 =>
    if c = maxCol then (row, maxCol - colDelta)
    else
      let v := getExponentValue raw row c
      if ¬ merged row c ∧ v = values row col then (row, c)
      else if v ≠ 0 then (row, c - colDelta)
      else fflCol raw values merged row col colDelta maxCol (c + colDelta) fuel

/-- Board::findFinalLocation: wall test, then walk along the move vector on the
current packed word (the snapshot grid supplies only the moving tile's value). -/
def findFinalLocation (raw : Nat) (values : Int → Int → Nat)
    (merged : Int → Int → Bool) (row col rowDelta colDelta : Int) : Int × Int :=
  if (rowDelta < 0 ∧ row = 0) ∨ (colDelta < 0 ∧ col = 0) ∨
     (rowDelta > 0 ∧ row = 3) ∨ (colDelta > 0 ∧ col = 3) then (row, col)
  else if rowDelta ≠ 0 then
    let maxRow : Int := if rowDelta < 0 then -1 else 4
    fflRow raw values merged row col rowDelta maxRow (row + rowDelta) 5
  else
    let maxCol : Int := if colDelta < 0 then -1 else 4
    fflCol raw values merged row col colDelta maxCol (col + colDelta) 5

/-- Board::findFarthestPosition: do/while walk from the cell along the direction
vector while the next cell is in range and empty; returns the last cell reached. -/
def findFarthestPosition (values : Int → Int → Nat) (r c : Int)
    (dir : Move) : Nat → Int × Int
  | 0 => (r, c)
  | fuel + 1 =>
    let r' := r + dir.vectorRowDelta
    let c' := c + dir.vectorColDelta
    if 0 ≤ r' ∧ r' < 4 ∧ 0 ≤ c' ∧ c' < 4 ∧ values r' c' = 0 then
      findFarthestPosition values r' c' dir fuel
    else (r, c)

/-- Board::calculateSmoothness: for each non-empty cell and each of RIGHT and
DOWN, find the nearest non-empty cell past the farthest empty run and add the
absolute value difference.  The accumulator is uint_fast8_t, hence mod 256. -/
def calculateSmoothness (values : Int → Int → Nat) : Nat :=
  cells16.foldl
    (fun s cell =>
      if values cell.1 cell.2 ≠ 0 then
        [Move.RIGHT, Move.DOWN].foldl
          (fun s dir =>
            let target := findFarthestPosition values cell.1 cell.2 dir 5
            let nextRow := target.1 + dir.vectorRowDelta
            let nextCol := target.2 + dir.vectorColDelta
            if 0 ≤ nextRow ∧ nextRow < 4 ∧ 0 ≤ nextCol ∧ nextCol < 4 ∧
               values nextRow nextCol ≠ 0 then
              let value := values cell.1 cell.2
              let otherValue := values nextRow nextCol
              if value ≥ otherValue then (s + (value - otherValue)) % 256
              else (s + (otherValue - value)) % 256
            else s) s
      else s) 0

/-- Skip-empties inner loop of Board::calculateMonotonicity:
for (; next < 4 && !get next; ++next). -/
def monoSkip (get : Int → Nat) : Int → Nat → Int
  | next, 0 => next
  | next, fuel + 1 =>
    if next < 4 ∧ get next = 0 then monoSkip get (next + 1) fuel else next

/-- One line walk of Board::calculateMonotonicity: the while (next < 4) loop over
a single row or column, threading the two uint8 totals (mod 256). -/
def monoWalk (get : Int → Nat) : Int → Int → Nat × Nat → Nat → Nat × Nat
  | _, _, t, 0 => t
  | col, next, t, fuel + 1 =>
    if next < 4 then
      let n1 := monoSkip get next 5
      let n2 := if 4 ≤ n1 then n1 - 1 else n1
      let currentValue := get col
      let nextValue := get n2
      let t' := if currentValue < nextValue then
          ((t.1 + (nextValue - currentValue)) % 256, t.2)
        else (t.1, (t.2 + (currentValue - nextValue)) % 256)
      monoWalk get n2 (n2 + 1) t' fuel
    else t

/-- Board::calculateMonotonicity: totals[0]/totals[1] accumulate over all four
rows, totals[2]/totals[3] over all four columns; the result is
min(totals[0],totals[1]) + min(totals[2],totals[3]) truncated to uint8. -/
def calculateMonotonicity (values : Int → Int → Nat) : Nat :=
  let rowT := [(0:Int),1,2,3].foldl
    (fun t row => monoWalk (fun c => values row c) 0 1 t 5) (0, 0)
  let colT := [(0:Int),1,2,3].foldl
    (fun t col => monoWalk (fun r => values r col) 0 1 t 5) (0, 0)
  (min rowT.1 rowT.2 + min colT.1 colT.2) % 256

/-- int16_t wrap-around conversion. -/
def toInt16 (z : Int) : Int := (z + 2 ^ 15) % 2 ^ 16 - 2 ^ 15

/-- State threaded through Board::move's double loop.  raw, merged and score
mirror the C++ locals (score is int16_t); moved and mergeSum are ghost
instrumentation recording whether any tile relocated and the sum of the
post-merge tile values created so far — they influence nothing. -/
structure MState where
  raw : Nat
  merged : Int → Int → Bool
  score : Int
  moved : Bool
  mergeSum : Nat

/-- Loop body of Board::move for one source cell: skip empty cells, find the
final location, and when it differs from the source either merge (destination
occupied: bump its exponent, flag it, score 2 << oldValue as int16) or translate
(write the snapshot exponent), then clear the source and update the score. -/
def processCell (values : Int → Int → Nat) (vRow vCol : Int)
    (st : MState) (cell : Int × Int) : MState :=
  let v := values cell.1 cell.2
  if v = 0 then st
  else
    let fl := findFinalLocation st.raw values st.merged cell.1 cell.2 vRow vCol
    if fl = cell then st
    else
      let oldValue := getExponentValue st.raw fl.1 fl.2
      let step : Nat × (Int → Int → Bool) × Int × Nat :=
        if oldValue ≠ 0 then
          (setValue st.raw fl.1 fl.2 (oldValue + 1),
           fun r c => if r = fl.1 ∧ c = fl.2 then true else st.merged r c,
           toInt16 (2 * 2 ^ oldValue),
           st.mergeSum + 2 ^ (oldValue + 1))
        else
          (setValue st.raw fl.1 fl.2 v, st.merged, 0, st.mergeSum)
      { raw := setValue step.1 cell.1 cell.2 0,
        merged := step.2.1,
        score := if st.score < 0 then step.2.2.1 else toInt16 (st.score + step.2.2.1),
        moved := true,
        mergeSum := step.2.2.2 }

/-- Bounded for-loop over Int indices: for (i = start; i != stop; i += delta),
with explicit fuel (4 covers every Move constant's loop). -/
def loopIdx (start stop delta : Int) : Nat → List Int
  | 0 => []
  | fuel + 1 =>
    if start = stop then [] else start :: loopIdx (start + delta) stop delta fuel

/-- The cell traversal order of Board::move's nested row/column loops. -/
def traversal (m : Move) : List (Int × Int) :=
  (loopIdx m.rowStart m.rowEnd m.rowDelta 4).flatMap
    (fun r => (loopIdx m.colStart m.colEnd m.colDelta 4).map (fun c => (r, c)))

/-- Board::move as a fold of processCell over the traversal, starting from the
snapshot grid, no merged flags, and score = -1. -/
def moveFull (raw : Nat) (m : Move) : MState :=
  (traversal m).foldl
    (processCell (fillExponents raw) m.vectorRowDelta m.vectorColDelta)
    ⟨raw, fun _ _ => false, -1, false, 0⟩

/-- Board::move's observable effect: the updated packed word and the returned
int16_t score (score ≥ 0 on a movement-producing slide, -1 otherwise, barring
int16 overflow). -/
def boardMove (raw : Nat) (m : Move) : Nat × Int :=
  ((moveFull raw m).raw, (moveFull raw m).score)

/-- A game-tree vertex: the move tag that produced it, the packed board, the
player to act, and the cumulative score (a uint16_t field in the source). -/
structure Node where
  move : MoveType
  board : Nat
  player : Player
  score : Nat
deriving DecidableEq, Repr

/-- Node::has2048: some cell's value equals 2048. -/
def Node.has2048 (n : Node) : Bool :=
  cells16.any (fun cell => getValue n.board cell.1 cell.2 = 2048)

/-- A RANDOM-player spawn successor: place the given exponent on the cell; the
new node is at player HUMAN with move tag RAND and the same score. -/
def spawnSucc (n : Node) (r c : Int) (e : Nat) : Node :=
  { move := MoveType.RAND, board := setValue n.board r c e,
    player := Player.HUMAN, score := n.score }

/-- Node::getSuccessors.  2048 on the board means no successors.  A RANDOM node
spawns a 2 then a 4 on each empty cell in row-major order.  A HUMAN node tries
UP, DOWN, LEFT, RIGHT in that order, keeping the slides whose score is ≥ 0; the
child score is the uint16_t sum score + addedScore. -/
def Node.getSuccessors (n : Node) : List Node :=
  if n.has2048 then []
  else match n.player with
  | Player.RANDOM =>
      cells16.flatMap (fun cell =>
        if getValue n.board cell.1 cell.2 = 0 then
          [spawnSucc n cell.1 cell.2 1, spawnSucc n cell.1 cell.2 2]
        else [])
  | Player.HUMAN =>
      [Move.UP, Move.DOWN, Move.LEFT, Move.RIGHT].flatMap (fun mv =>
        let res := moveFull n.board mv
        if 0 ≤ res.score then
          [{ move := mv.type, board := res.raw, player := Player.RANDOM,
             score := (n.score + res.score.toNat) % 2 ^ 16 }]
        else [])

/-- Node::isGameOver: no successors. -/
def Node.isGameOver (n : Node) : Bool := n.getSuccessors.isEmpty

/-- Node::getHeuristic.  A lost terminal scores 0; a won terminal adds the score
shifted up 47 bits; every node otherwise adds
10*(240 - smoothness) + 100*(240 - monotonicity) + 270*empty + 100*largest. -/
def Node.getHeuristic (n : Node) : Int :=
  if n.isGameOver ∧ ¬ n.has2048 then 0
  else
    let base : Int := if n.isGameOver then (n.score : Int) * 2 ^ 47 else 0
    let values := fillExponents n.board
    let smoothness : Int := 240 - (calculateSmoothness values : Int)
    let monotonicity : Int := 240 - (calculateMonotonicity values : Int)
    let emptySpaces : Int := (numEmptySpaces n.board : Int)
    let largestExponent : Int := (getLargestExponent n.board : Int)
    base + 10 * smoothness + 100 * monotonicity + 270 * emptySpaces +
      100 * largestExponent

/-- std::numeric_limits of int_fast64_t : min. -/
def IntMin : Int := -(2 ^ 63)
/-- std::numeric_limits of int_fast64_t : max. -/
def IntMax : Int := 2 ^ 63 - 1

/-- AlphaBetaResult. -/
structure ABResult where
  value : Int
  move : MoveType
  tc : TerminationCondition
  pruned : Nat
deriving DecidableEq, Repr

/-- The maximizing (HUMAN) successor loop of alphabeta.  recv s a performs the
recursive call on successor s with alpha = a (beta is fixed in this loop).
State: alpha, bestMove, bestValue, pruned. -/
def abLoopH (recv : Node → Int → ABResult) (beta : Int) :
    List Node → Int → MoveType → Int → Nat → ABResult
  | [], alpha, bestMove, _, pruned =>
      ⟨alpha, bestMove, TerminationCondition.CONTINUE, pruned⟩
  | s :: rest, alpha, bestMove, bestValue, pruned =>
      let a := recv s alpha
      let alpha' := max alpha a.value
      let pruned' := pruned + a.pruned - 1
      let best := if a.value > bestValue ∨ bestMove = MoveType.GAMEOVER then
          (s.move, a.value) else (bestMove, bestValue)
      if a.tc = TerminationCondition.ABORT then ⟨alpha', best.1, a.tc, pruned'⟩
      else if beta ≤ alpha' then
        ⟨alpha', best.1, TerminationCondition.CONTINUE, pruned'⟩
      else abLoopH recv beta rest alpha' best.1 best.2 pruned'

/-- The minimizing (RANDOM) successor loop of alphabeta (regular minimax
variant).  recv s b performs the recursive call on successor s at depth+1 with
beta = b (alpha is fixed in this loop). -/
def abLoopR (recv : Node → Int → ABResult) (alpha : Int) :
    List Node → Int → Nat → ABResult
  | [], beta, pruned => ⟨beta, MoveType.RAND, TerminationCondition.CONTINUE, pruned⟩
  | s :: rest, beta, pruned =>
      let b := recv s beta
      let beta' := min beta b.value
      let pruned' := pruned + b.pruned - 1
      if b.tc = TerminationCondition.ABORT then
        ⟨beta', MoveType.GAMEOVER, b.tc, pruned'⟩
      else if beta' ≤ alpha then
        ⟨beta', MoveType.RAND, TerminationCondition.CONTINUE, pruned'⟩
      else abLoopR recv alpha rest beta' pruned'

/-- alphabeta(node, terminateCondition, depth, alpha, beta).  The C++ recursion
terminates because the game tree is finite / depth-limited; the embedding makes
that explicit with fuel (every theorem supplies enough fuel for its depth). -/
def alphabeta : Nat → Node → (Node → Nat → TerminationCondition) → Nat →
    Int → Int → ABResult
  | 0, _, _, _, _, _ => ⟨0, MoveType.GAMEOVER, TerminationCondition.CONTINUE, 0⟩
  | fuel + 1, node, pred, depth, alpha, beta =>
    let condition := pred node depth
    if condition = TerminationCondition.ABORT then
      ⟨if node.player = Player.HUMAN then alpha else beta,
       MoveType.GAMEOVER, condition, 0⟩
    else if condition = TerminationCondition.END ∨ node.isGameOver then
      ⟨node.getHeuristic, MoveType.GAMEOVER, condition, 0⟩
    else if node.player = Player.HUMAN then
      abLoopH (fun s a => alphabeta fuel s pred depth a beta) beta
        node.getSuccessors alpha MoveType.GAMEOVER IntMin
        node.getSuccessors.length
    else
      abLoopR (fun s b => alphabeta fuel s pred (depth + 1) alpha b) alpha
        node.getSuccessors beta node.getSuccessors.length

/-- suggestMove(node, terminateCondition): alphabeta from depth 0 with the full
int_fast64_t window. -/
def suggestMove (fuel : Nat) (n : Node)
    (pred : Node → Nat → TerminationCondition) : ABResult :=
  alphabeta fuel n pred 0 IntMin IntMax

/-- The depth-cutoff predicate of suggestMove(node, maxDepth): END exactly when
depth ≥ maxDepth. -/
def depthPred (maxDepth : Nat) : Node → Nat → TerminationCondition :=
  fun _ depth => if maxDepth ≤ depth then TerminationCondition.END
    else TerminationCondition.CONTINUE

/-- suggestMove(node, maxDepth). -/
def suggestMoveD (fuel : Nat) (n : Node) (maxDepth : Nat) : ABResult :=
  suggestMove fuel n (depthPred maxDepth)

/-- The per-iteration predicate built by suggestMoveWithDeadline.  The wall
clock is abstracted by overDeadline : Bool — the elapsed ≥ deadline test's
value, constant under the theorems' hypothesis that the deadline has already
passed.  ABORT when over deadline and past the starting depth floor; otherwise
END at depth ≥ maxDepth. -/
def deadlinePred (overDeadline : Bool) (startingDepth maxDepth : Nat) :
    Node → Nat → TerminationCondition :=
  fun _ depth =>
    if overDeadline ∧ startingDepth < maxDepth then TerminationCondition.ABORT
    else if maxDepth ≤ depth then TerminationCondition.END
    else TerminationCondition.CONTINUE

/-- The unbounded for (maxDepth = startingDepth;; ++maxDepth) loop of
suggestMoveWithDeadline, with fuel for the embedding. -/
def deadlineLoop (overDeadline : Bool) (n : Node) (abFuel : Nat) :
    ABResult → Nat → Nat → ABResult
  | best, _, 0 => best
  | best, maxDepth, loopFuel + 1 =>
    let newSuggestion := suggestMove abFuel n (deadlinePred overDeadline 2 maxDepth)
    if newSuggestion.tc = TerminationCondition.ABORT ∧ 2 < maxDepth then best
    else deadlineLoop overDeadline n abFuel newSuggestion (maxDepth + 1) loopFuel

/-- suggestMoveWithDeadline: iterative deepening from maxDepth = 2, keeping the
last completed suggestion (the initial best is the default-constructed
AlphaBetaResult).  The status callback only prints and is omitted. -/
def suggestMoveWithDeadline (overDeadline : Bool) (n : Node)
    (loopFuel abFuel : Nat) : ABResult :=
  deadlineLoop overDeadline n abFuel
    ⟨0, MoveType.GAMEOVER, TerminationCondition.ABORT, 0⟩ 2 loopFuel

/-! Specification-side definitions, used to state the claims (never used by the
embedding above). -/

/-- Pack a row-major list of cell exponents into a board word (test inputs). -/
def packExps (l : List Nat) : Nat :=
  (List.range 16).foldl (fun acc i => acc + (l.getD i 0) <<< (4 * i)) 0

/-- The value of a tile with the given exponent: 0 when empty, else 2^e. -/
def tileVal (e : Nat) : Nat := if e = 0 then 0 else 2 ^ e

/-- The total of tile values over the grid: 2^e for each cell whose exponent e
is positive, 0 for empty cells. -/
def totalValue (raw : Nat) : Nat :=
  (cells16.map (fun cell => tileVal (getExponentValue raw cell.1 cell.2))).sum

/-- Positive and negative delta sums along a list: first component sums the
increases between consecutive entries, second the magnitudes of decreases. -/
def lineDeltas (l : List Nat) : Nat × Nat :=
  (l.zip l.tail).foldl
    (fun acc p => (acc.1 + (p.2 - p.1), acc.2 + (p.1 - p.2))) (0, 0)

/-- A row of a grid as a list. -/
def rowVals (g : Int → Int → Nat) (r : Int) : List Nat := [g r 0, g r 1, g r 2, g r 3]

/-- A column of a grid as a list. -/
def colVals (g : Int → Int → Nat) (c : Int) : List Nat := [g 0 c, g 1 c, g 2 c, g 3 c]

/-- The claim's reference monotonicity: deltas only between consecutive
non-empty cells of each line; over the rows, the minimum of the global increase
and decrease totals, plus the same over the columns. -/
def refMonotonicity (g : Int → Int → Nat) : Nat :=
  let rows := [(0:Int),1,2,3].map (fun r => lineDeltas ((rowVals g r).filter (· ≠ 0)))
  let cols := [(0:Int),1,2,3].map (fun c => lineDeltas ((colVals g c).filter (· ≠ 0)))
  min (rows.map Prod.fst).sum (rows.map Prod.snd).sum +
    min (cols.map Prod.fst).sum (cols.map Prod.snd).sum

/-- The cell indices actually visited by the source's monotonicity walk along
one line: index 0 first (empty or not), then every non-empty index among
1, 2, 3, and finally index 3 again when it is empty (the clamped comparison
closing a trailing empty run against value 0). -/
def walkVisited (get : Int → Nat) : List Int :=
  0 :: (([(1:Int), 2, 3].filter (fun i => get i ≠ 0)) ++
    (if get 3 = 0 then [3] else []))

/-- Delta totals of one line under the source's walk. -/
def walkDeltas (get : Int → Nat) : Nat × Nat :=
  lineDeltas ((walkVisited get).map get)

/-- The amended reference monotonicity: same min-of-totals shape as the claim,
but with deltas taken between the walk-visited cells. -/
def refMonotonicityWalk (g : Int → Int → Nat) : Nat :=
  let rows := [(0:Int),1,2,3].map (fun r => walkDeltas (fun c => g r c))
  let cols := [(0:Int),1,2,3].map (fun c => walkDeltas (fun r => g r c))
  min (rows.map Prod.fst).sum (rows.map Prod.snd).sum +
    min (cols.map Prod.fst).sum (cols.map Prod.snd).sum

/-- The claim's description of RANDOM-player expansion: for each empty cell in
row-major order, a value-2 spawn immediately followed by a value-4 spawn. -/
def specRandomSuccessors (n : Node) : List Node :=
  (cells16.filter (fun cell => getValue n.board cell.1 cell.2 = 0)).flatMap
    (fun cell => [spawnSucc n cell.1 cell.2 1, spawnSucc n cell.1 cell.2 2])

/-- Plain minimax of depth d, as the claim describes it: the node's heuristic at
END (depth ≥ d) or terminal nodes, the maximum over a HUMAN node's successors
searched at the same depth, the minimum over a RANDOM node's successors searched
at depth + 1. -/
def minimax : Nat → Node → Nat → Nat → Int
  | 0, n, _, _ => n.getHeuristic
  | fuel + 1, n, d, depth =>
    if d ≤ depth ∨ n.getSuccessors = [] then n.getHeuristic
    else match n.player with
    | Player.HUMAN =>
        n.getSuccessors.foldl (fun acc s => max acc (minimax fuel s d depth)) IntMin
    | Player.RANDOM =>
        n.getSuccessors.foldl (fun acc s => min acc (minimax fuel s d (depth + 1))) IntMax

/-! Proof-infrastructure predicates for the slide fold. -/

/-- Strict traversal-order predicates: ord fl cell says the cell fl is visited
strictly before cell by the direction's traversal (same line, wall-ward). -/
def ordUP (fl cell : Int × Int) : Prop := fl.2 = cell.2 ∧ fl.1 < cell.1
/-- See ordUP. -/
def ordDOWN (fl cell : Int × Int) : Prop := fl.2 = cell.2 ∧ cell.1 < fl.1
/-- See ordUP. -/
def ordLEFT (fl cell : Int × Int) : Prop := fl.1 = cell.1 ∧ fl.2 < cell.2
/-- See ordUP. -/
def ordRIGHT (fl cell : Int × Int) : Prop := fl.1 = cell.1 ∧ cell.2 < fl.2

instance (x y : Int × Int) : Decidable (ordUP x y) := by
  unfold ordUP; infer_instance
instance (x y : Int × Int) : Decidable (ordDOWN x y) := by
  unfold ordDOWN; infer_instance
instance (x y : Int × Int) : Decidable (ordLEFT x y) := by
  unfold ordLEFT; infer_instance
instance (x y : Int × Int) : Decidable (ordRIGHT x y) := by
  unfold ordRIGHT; infer_instance

/-- Specification of findFinalLocation for the vector (vr, vc) and traversal
order ord: the result is the source itself, or an in-range cell strictly
earlier in the traversal that is either an unmerged tile matching the moving
tile's snapshot value (a merge target) or empty (a translation target). -/
def fflSpecP (vr vc : Int) (ord : Int × Int → Int × Int → Prop) : Prop :=
  ∀ (raw : Nat) (values : Int → Int → Nat) (merged : Int → Int → Bool) (r c : Int),
    inR r c →
    findFinalLocation raw values merged r c vr vc = (r, c) ∨
    (inR (findFinalLocation raw values merged r c vr vc).1
        (findFinalLocation raw values merged r c vr vc).2 ∧
      ord (findFinalLocation raw values merged r c vr vc) (r, c) ∧
      ((¬ merged (findFinalLocation raw values merged r c vr vc).1
            (findFinalLocation raw values merged r c vr vc).2 ∧
          getExponentValue raw (findFinalLocation raw values merged r c vr vc).1
            (findFinalLocation raw values merged r c vr vc).2 = values r c) ∨
        getExponentValue raw (findFinalLocation raw values merged r c vr vc).1
          (findFinalLocation raw values merged r c vr vc).2 = 0))

/-- Invariant carried through Board::move's fold.  raw0 is the initial word, E
an upper bound on its cell exponents, rest the unprocessed traversal suffix. -/
structure MoveInv (raw0 : Nat) (E : Nat) (st : MState)
    (rest : List (Int × Int)) : Prop where
  rawLt : st.raw < 2 ^ 64
  pristine : ∀ cell ∈ rest,
    getExponentValue st.raw cell.1 cell.2 = getExponentValue raw0 cell.1 cell.2
  total : totalValue st.raw = totalValue raw0
  notMovedRaw : st.moved = false → st.raw = raw0
  notMovedSum : st.moved = false → st.mergeSum = 0
  sumBound : st.mergeSum ≤ (16 - rest.length) * 2 ^ (E + 1)
  scoreOk : E ≤ 9 →
    st.score = if st.moved then (st.mergeSum : Int) else -1

/-- The three-part alpha-beta/minimax window relation at a given fuel and
depth bound d (fail-hard correctness statement): with the depth-d END
predicate, the alphabeta value is at most alpha when the minimax value is,
at least beta when the minimax value is, and exactly the minimax value when
that value lies strictly inside the window. -/
def ABGood (fuel d : Nat) : Prop :=
  ∀ (n : Node) (depth : Nat) (alpha beta : Int),
    n.board < 2 ^ 64 → n.score < 2 ^ 16 →
    2 * (d - depth) + (if n.player = Player.HUMAN then 2 else 1) ≤ fuel →
    alpha < beta → IntMin ≤ alpha → beta ≤ IntMax →
    (minimax fuel n d depth ≤ alpha →
      (alphabeta fuel n (depthPred d) depth alpha beta).value ≤ alpha) ∧
    (beta ≤ minimax fuel n d depth →
      beta ≤ (alphabeta fuel n (depthPred d) depth alpha beta).value) ∧
    (alpha < minimax fuel n d depth → minimax fuel n d depth < beta →
      (alphabeta fuel n (depthPred d) depth alpha beta).value =
        minimax fuel n d depth)

/-! ## Bit-level lemmas about the packed board word -/

theorem shiftOf_eq {r c : Int} (h : inR r c) :
    shiftOf r c = 16 * r.toNat + 4 * c.toNat := by
  obtain ⟨h1, h2, h3, h4⟩ := h
  unfold shiftOf
  omega

theorem getExp_eq (raw : Nat) (r c : Int) :
    getExponentValue raw r c = (raw >>> shiftOf r c) &&& 15 := by
  apply Nat.eq_of_testBit_eq
  intro i
  simp only [getExponentValue, nibbleMask, Nat.testBit_shiftRight, Nat.testBit_and,
    Nat.testBit_shiftLeft, ge_iff_le, Nat.le_add_right, decide_True, Bool.true_and,
    Nat.add_sub_cancel_left]

theorem getExp_le_15 (raw : Nat) (r c : Int) : getExponentValue raw r c ≤ 15 := by
  rw [getExp_eq]; exact Nat.and_le_right

theorem fillExponents_eq (raw : Nat) (r c : Int) :
    fillExponents raw r c = getExponentValue raw r c := by
  rw [getExp_eq]; rfl

theorem testBit_getExp (raw : Nat) (r c : Int) (i : Nat) :
    (getExponentValue raw r c).testBit i =
      (decide (i < 4) && raw.testBit (shiftOf r c + i)) := by
  rw [getExp_eq]
  have h15 : (15 : Nat) = 2 ^ 4 - 1 := by norm_num
  simp only [Nat.testBit_and, Nat.testBit_shiftRight, h15, Nat.testBit_two_pow_sub_one]
  rw [Bool.and_comm]

theorem testBit_setValue {raw : Nat} (hraw : raw < 2 ^ 64) {r c : Int}
    (hr : inR r c) {e : Nat} (he : e ≤ 15) (i : Nat) :
    (setValue raw r c e).testBit i =
      if shiftOf r c ≤ i ∧ i < shiftOf r c + 4 then e.testBit (i - shiftOf r c)
      else raw.testBit i := by
  have hs : shiftOf r c = 16 * r.toNat + 4 * c.toNat := shiftOf_eq hr
  have hs60 : shiftOf r c ≤ 60 := by
    obtain ⟨h1, h2, h3, h4⟩ := hr; omega
  set s := shiftOf r c with hsdef
  have h15 : (15 : Nat) = 2 ^ 4 - 1 := by norm_num
  have hmod : ∀ x : Nat, (x % 2 ^ 64).testBit i = (decide (i < 64) && x.testBit i) := by
    intro x; simpa using Nat.testBit_mod_two_pow x 64 i
  unfold setValue nibbleMask
  rcases Nat.lt_or_ge i 64 with hi | hi
  · -- i < 64
    by_cases hnib : s ≤ i ∧ i < s + 4
    · -- inside the nibble
      have : (raw &&& ((2 ^ 64 - 1) ^^^ 15 <<< s)).testBit i = false := by
        simp only [Nat.testBit_and, Nat.testBit_xor, Nat.testBit_two_pow_sub_one,
          Nat.testBit_shiftLeft, h15]
        have d1 : decide (i < 64) = true := by simp [hi]
        have d2 : decide (s ≤ i) = true := by simp [hnib.1]
        have d3 : decide (i - s < 4) = true := by simp; omega
        simp [d1, d2, d3]
      rw [if_pos hnib]
      by_cases hepos : 0 < e
      · simp only [if_pos hepos, Nat.testBit_or, this, Bool.false_or, hmod,
          Nat.testBit_shiftLeft]
        have d1 : decide (i < 64) = true := by simp [hi]
        have d2 : decide (i ≥ s) = true := by simp [hnib.1]
        simp [d1, d2]
      · have he0 : e = 0 := by omega
        simp only [if_neg hepos, Nat.or_zero]
        rw [this, he0]
        simp
    · -- outside the nibble, i < 64
      have hleft : (raw &&& ((2 ^ 64 - 1) ^^^ 15 <<< s)).testBit i = raw.testBit i := by
        simp only [Nat.testBit_and, Nat.testBit_xor, Nat.testBit_two_pow_sub_one,
          Nat.testBit_shiftLeft, h15]
        have d1 : decide (i < 64) = true := by simp [hi]
        by_cases hsi : s ≤ i
        · have d2 : decide (i ≥ s) = true := by simp [hsi]
          have d3 : decide (i - s < 4) = false := by simp; omega
          simp [d1, d2, d3]
        · have d2 : decide (i ≥ s) = false := by simp [hsi]
          simp [d1, d2]
      have hright : ∀ (hepos : 0 < e), (e <<< s % 2 ^ 64).testBit i = false := by
        intro _
        rw [hmod, Nat.testBit_shiftLeft]
        by_cases hsi : s ≤ i
        · have : e.testBit (i - s) = false := by
            apply Nat.testBit_lt_two_pow
            have h4le : 4 ≤ i - s := by omega
            calc e < 2 ^ 4 := by omega
            _ ≤ 2 ^ (i - s) := Nat.pow_le_pow_right (by norm_num) h4le
          simp [this]
        · have d2 : decide (i ≥ s) = false := by simp [hsi]
          simp [d2]
      rw [if_neg hnib]
      by_cases hepos : 0 < e
      · simp only [if_pos hepos]
        rw [Nat.testBit_or, hleft, hright hepos, Bool.or_false]
      · simp only [if_neg hepos, Nat.or_zero]
        exact hleft
  · -- i ≥ 64
    have hraw_bit : raw.testBit i = false :=
      Nat.testBit_lt_two_pow (lt_of_lt_of_le hraw (Nat.pow_le_pow_right (by norm_num) hi))
    have hleft : (raw &&& ((2 ^ 64 - 1) ^^^ 15 <<< s)).testBit i = false := by
      simp [Nat.testBit_and, hraw_bit]
    have hcond : ¬ (s ≤ i ∧ i < s + 4) := by omega
    rw [if_neg hcond]
    by_cases hepos : 0 < e
    · have hz : (e <<< s % 2 ^ 64).testBit i = false := by
        rw [hmod]
        have d1 : decide (i < 64) = false := by simp; omega
        simp [d1]
      simp only [if_pos hepos]
      rw [Nat.testBit_or, hleft, hz, hraw_bit]
      simp
    · simp only [if_neg hepos, Nat.or_zero]
      rw [hleft, hraw_bit]

/-- Distinct in-range cells occupy disjoint nibbles. -/
theorem shiftOf_disjoint {r c r' c' : Int} (h : inR r c) (h' : inR r' c')
    (hne : (r, c) ≠ (r', c')) :
    shiftOf r c + 4 ≤ shiftOf r' c' ∨ shiftOf r' c' + 4 ≤ shiftOf r c := by
  rw [shiftOf_eq h, shiftOf_eq h']
  obtain ⟨h1, h2, h3, h4⟩ := h
  obtain ⟨h1', h2', h3', h4'⟩ := h'
  have : r ≠ r' ∨ c ≠ c' := by
    by_contra hcon
    push_neg at hcon
    exact hne (by rw [hcon.1, hcon.2])
  omega

theorem setValue_lt {raw : Nat} (hraw : raw < 2 ^ 64) (r c : Int) (e : Nat) :
    setValue raw r c e < 2 ^ 64 := by
  unfold setValue
  apply Nat.or_lt_two_pow
  · exact lt_of_le_of_lt Nat.and_le_left hraw
  · split
    · exact Nat.mod_lt _ (by norm_num)
    · norm_num

theorem getExp_setValue_self {raw : Nat} (hraw : raw < 2 ^ 64) {r c : Int}
    (hr : inR r c) {e : Nat} (he : e ≤ 15) :
    getExponentValue (setValue raw r c e) r c = e := by
  apply Nat.eq_of_testBit_eq
  intro i
  rw [testBit_getExp]
  rcases Nat.lt_or_ge i 4 with hi | hi
  · rw [testBit_setValue hraw hr he]
    have hcond : shiftOf r c ≤ shiftOf r c + i ∧ shiftOf r c + i < shiftOf r c + 4 := by omega
    rw [if_pos hcond]
    simp [hi, Nat.add_sub_cancel_left]
  · have : e.testBit i = false := by
      apply Nat.testBit_lt_two_pow
      calc e < 2 ^ 4 := by omega
      _ ≤ 2 ^ i := Nat.pow_le_pow_right (by norm_num) hi
    simp [this, Nat.not_lt.mpr hi]

theorem getExp_setValue_other {raw : Nat} (hraw : raw < 2 ^ 64) {r c r' c' : Int}
    (hr : inR r c) (hr' : inR r' c') (hne : (r, c) ≠ (r', c')) {e : Nat} (he : e ≤ 15) :
    getExponentValue (setValue raw r c e) r' c' = getExponentValue raw r' c' := by
  apply Nat.eq_of_testBit_eq
  intro i
  rw [testBit_getExp, testBit_getExp]
  rcases Nat.lt_or_ge i 4 with hi | hi
  · rw [testBit_setValue hraw hr he]
    have hdisj := shiftOf_disjoint hr hr' hne
    have hcond : ¬ (shiftOf r c ≤ shiftOf r' c' + i ∧
        shiftOf r' c' + i < shiftOf r c + 4) := by omega
    rw [if_neg hcond]
  · simp [Nat.not_lt.mpr hi]

/-- C9: Board::setValue(r, c, e) rewrites only the nibble of cell (r, c), which
afterwards holds exponent e; every other cell's exponent and every bit outside
the nibble's window of the packed word are unchanged. -/
theorem C9_setValue_frame {raw : Nat} (hraw : raw < 2 ^ 64) {r c : Int}
    (hr : inR r c) {e : Nat} (he : e ≤ 15) :
    getExponentValue (setValue raw r c e) r c = e ∧
    (∀ r' c', inR r' c' → (r', c') ≠ (r, c) →
      getExponentValue (setValue raw r c e) r' c' = getExponentValue raw r' c') ∧
    (∀ i, i < shiftOf r c ∨ shiftOf r c + 4 ≤ i →
      (setValue raw r c e).testBit i = raw.testBit i) := by
  refine ⟨getExp_setValue_self hraw hr he, ?_, ?_⟩
  · intro r' c' hr' hne
    exact getExp_setValue_other hraw hr hr' (by
      intro hcon
      exact hne (by injection hcon with a b; rw [a, b])) he
  · intro i hi
    rw [testBit_setValue hraw hr he]
    rw [if_neg (by omega)]

/-- Witness for C9 at a concrete board, cell and exponent. -/
theorem C9_setValue_frame_witness :
    (81985529216486895 : Nat) < 2 ^ 64 ∧ inR 1 2 ∧ (7 : Nat) ≤ 15 ∧
    (getExponentValue (setValue 81985529216486895 1 2 7) 1 2 = 7 ∧
    (∀ r' c', inR r' c' → (r', c') ≠ (1, 2) →
      getExponentValue (setValue 81985529216486895 1 2 7) r' c' =
        getExponentValue 81985529216486895 r' c') ∧
    (∀ i, i < shiftOf 1 2 ∨ shiftOf 1 2 + 4 ≤ i →
      (setValue 81985529216486895 1 2 7).testBit i =
        (81985529216486895 : Nat).testBit i)) := by
  exact ⟨by norm_num, by decide, by norm_num,
    C9_setValue_frame (by norm_num) (by decide) (by norm_num)⟩

/-- C2: sliding the board whose first row holds values [4,2,2,4] RIGHT yields
first row [0,4,4,4] and a delta score of 4: the two middle 2s merge once into a
4 at column 2, the 4 at column 3 stays, and the left 4 slides to column 1
without merging into the tile already merged during this slide. -/
theorem C2_right_slide_merge_order :
    boardMove (packExps [2, 1, 1, 2]) Move.RIGHT = (packExps [0, 2, 2, 2], 4) := by
  decide

/-- C1 counterexample: on the board [16384, 16384, 0, ...] slid LEFT, the two
tiles merge (the board word changes), yet Board::move returns the negative
value -32768: the int16_t score 2 << 14 wraps.  The claimed equivalence
"negative return iff nothing moved, and then the word is unchanged" fails. -/
theorem C1_counterexample :
    (moveFull (packExps [14, 14]) Move.LEFT).score < 0 ∧
    (moveFull (packExps [14, 14]) Move.LEFT).moved = true ∧
    (moveFull (packExps [14, 14]) Move.LEFT).raw ≠ packExps [14, 14] := by
  decide

/-- C6 counterexample: on the exponent grid with a single tile at (0, 2), the
source's monotonicity is 1 (the walk pairs the empty cell 0 with the tile and
the tile with the clamped empty cell 3), while the claim's reference — deltas
only between consecutive non-empty cells — is 0. -/
theorem C6_counterexample :
    calculateMonotonicity (fillExponents (packExps [0, 0, 1, 0])) = 1 ∧
    refMonotonicity (fillExponents (packExps [0, 0, 1, 0])) = 0 := by
  decide

/-- C7 counterexample: a HUMAN node with score 65535 and first row [2, 2] has a
successor (the LEFT merge, delta 4) whose uint16_t score wraps to 3 < 65535. -/
theorem C7_counterexample :
    ∃ s ∈ (Node.mk MoveType.START (packExps [1, 1]) Player.HUMAN 65535).getSuccessors,
      s.score < (Node.mk MoveType.START (packExps [1, 1]) Player.HUMAN 65535).score := by
  decide

/-- C4 counterexample: the node holding a single 2048 tile with score 0 is
terminal with 2048, yet its heuristic is 31550 < 2^47 (the score term the
source shifts up 47 bits is zero). -/
theorem C4_counterexample :
    (Node.mk MoveType.RAND 11 Player.HUMAN 0).isGameOver = true ∧
    (Node.mk MoveType.RAND 11 Player.HUMAN 0).has2048 = true ∧
    (Node.mk MoveType.RAND 11 Player.HUMAN 0).getHeuristic < 2 ^ 47 := by
  decide

/-! ## Monotonicity walk lemmas -/

theorem walkDeltas_le {get : Int → Nat} (hb : ∀ i ∈ [(0:Int),1,2,3], get i ≤ 15) :
    (walkDeltas get).1 + (walkDeltas get).2 ≤ 45 := by
  have b0 := hb 0 (by simp)
  have b1 := hb 1 (by simp)
  have b2 := hb 2 (by simp)
  have b3 := hb 3 (by simp)
  by_cases h1 : get 1 = 0 <;> by_cases h2 : get 2 = 0 <;> by_cases h3 : get 3 = 0 <;>
    simp [walkDeltas, walkVisited, lineDeltas, h1, h2, h3] <;> omega

theorem monoWalk_eq (get : Int → Nat) (t0 t1 : Nat)
    (hb : ∀ i ∈ [(0:Int),1,2,3], get i ≤ 15) (ht0 : t0 ≤ 210) (ht1 : t1 ≤ 210) :
    monoWalk get 0 1 (t0, t1) 5 = (t0 + (walkDeltas get).1, t1 + (walkDeltas get).2) := by
  have b0 := hb 0 (by simp)
  have b1 := hb 1 (by simp)
  have b2 := hb 2 (by simp)
  have b3 := hb 3 (by simp)
  by_cases h1 : get 1 = 0 <;> by_cases h2 : get 2 = 0 <;> by_cases h3 : get 3 = 0 <;>
    simp [walkDeltas, walkVisited, lineDeltas, monoWalk, monoSkip, h1, h2, h3] <;>
    first
    | omega
    | (split_ifs <;> omega)
    | (split_ifs <;> simp_all <;> omega)

theorem gridLines_le {g : Int → Int → Nat}
    (hb : ∀ cell ∈ cells16, g cell.1 cell.2 ≤ 15) :
    ∀ r ∈ [(0:Int),1,2,3], ∀ i ∈ [(0:Int),1,2,3], g r i ≤ 15 := by
  intro r hr i hi
  fin_cases hr <;> fin_cases hi <;>
    first
    | exact hb (0,0) (by simp [cells16]) | exact hb (0,1) (by simp [cells16])
    | exact hb (0,2) (by simp [cells16]) | exact hb (0,3) (by simp [cells16])
    | exact hb (1,0) (by simp [cells16]) | exact hb (1,1) (by simp [cells16])
    | exact hb (1,2) (by simp [cells16]) | exact hb (1,3) (by simp [cells16])
    | exact hb (2,0) (by simp [cells16]) | exact hb (2,1) (by simp [cells16])
    | exact hb (2,2) (by simp [cells16]) | exact hb (2,3) (by simp [cells16])
    | exact hb (3,0) (by simp [cells16]) | exact hb (3,1) (by simp [cells16])
    | exact hb (3,2) (by simp [cells16]) | exact hb (3,3) (by simp [cells16])

theorem monotonicity_eq_walk (g : Int → Int → Nat)
    (hb : ∀ cell ∈ cells16, g cell.1 cell.2 ≤ 15) :
    calculateMonotonicity g = refMonotonicityWalk g := by
  have hline := gridLines_le hb
  have hr0 : ∀ i ∈ [(0:Int),1,2,3], (fun c => g 0 c) i ≤ 15 := hline 0 (by simp)
  have hr1 : ∀ i ∈ [(0:Int),1,2,3], (fun c => g 1 c) i ≤ 15 := hline 1 (by simp)
  have hr2 : ∀ i ∈ [(0:Int),1,2,3], (fun c => g 2 c) i ≤ 15 := hline 2 (by simp)
  have hr3 : ∀ i ∈ [(0:Int),1,2,3], (fun c => g 3 c) i ≤ 15 := hline 3 (by simp)
  have hc0 : ∀ i ∈ [(0:Int),1,2,3], (fun r => g r 0) i ≤ 15 := by
    intro i hi; exact hline i hi 0 (by simp)
  have hc1 : ∀ i ∈ [(0:Int),1,2,3], (fun r => g r 1) i ≤ 15 := by
    intro i hi; exact hline i hi 1 (by simp)
  have hc2 : ∀ i ∈ [(0:Int),1,2,3], (fun r => g r 2) i ≤ 15 := by
    intro i hi; exact hline i hi 2 (by simp)
  have hc3 : ∀ i ∈ [(0:Int),1,2,3], (fun r => g r 3) i ≤ 15 := by
    intro i hi; exact hline i hi 3 (by simp)
  have wr0 := walkDeltas_le hr0
  have wr1 := walkDeltas_le hr1
  have wr2 := walkDeltas_le hr2
  have wr3 := walkDeltas_le hr3
  have wc0 := walkDeltas_le hc0
  have wc1 := walkDeltas_le hc1
  have wc2 := walkDeltas_le hc2
  have wc3 := walkDeltas_le hc3
  unfold calculateMonotonicity refMonotonicityWalk
  simp only [List.foldl, List.map, List.sum_cons, List.sum_nil]
  rw [monoWalk_eq _ _ _ hr0 (by omega) (by omega),
      monoWalk_eq _ _ _ hr1 (by omega) (by omega),
      monoWalk_eq _ _ _ hr2 (by omega) (by omega),
      monoWalk_eq _ _ _ hr3 (by omega) (by omega),
      monoWalk_eq _ _ _ hc0 (by omega) (by omega),
      monoWalk_eq _ _ _ hc1 (by omega) (by omega),
      monoWalk_eq _ _ _ hc2 (by omega) (by omega),
      monoWalk_eq _ _ _ hc3 (by omega) (by omega)]
  omega

/-- C6 amended: calculateMonotonicity equals the min-of-delta-totals reference
in which each line's deltas run over the walk-visited cells (starting at index
0 even when empty, skipping empties for the successor, clamping a trailing
empty run to index 3), for every grid of exponents (entries ≤ 15). -/
theorem C6_amended (g : Int → Int → Nat)
    (hb : ∀ cell ∈ cells16, g cell.1 cell.2 ≤ 15) :
    calculateMonotonicity g = refMonotonicityWalk g :=
  monotonicity_eq_walk g hb

/-- Witness for C6 amended at a concrete exponent grid. -/
theorem C6_amended_witness :
    (∀ cell ∈ cells16,
      fillExponents (packExps [1, 0, 3, 2, 0, 5]) cell.1 cell.2 ≤ 15) ∧
    calculateMonotonicity (fillExponents (packExps [1, 0, 3, 2, 0, 5])) =
      refMonotonicityWalk (fillExponents (packExps [1, 0, 3, 2, 0, 5])) := by
  exact ⟨by decide, C6_amended _ (by decide)⟩

/-! ## RANDOM-player successor enumeration -/

theorem flatMap_if_eq_filter {α β : Type} (l : List α) (q : α → Prop)
    [DecidablePred q] (f : α → List β) :
    l.flatMap (fun x => if q x then f x else []) =
      (l.filter (fun x => decide (q x))).flatMap f := by
  induction l with
  | nil => rfl
  | cons x xs ih =>
    by_cases hx : q x <;>
      simp [List.flatMap_cons, List.filter_cons, hx, ih]

theorem flatMap_pair_length {α β : Type} (l : List α) (f g : α → β) :
    (l.flatMap (fun x => [f x, g x])).length = 2 * l.length := by
  induction l with
  | nil => rfl
  | cons x xs ih => simp [List.flatMap_cons, ih]; omega

/-- C5: a RANDOM node without a 2048 tile expands to exactly the spec list —
two successors per empty cell in row-major order, the value-2 spawn immediately
before the value-4 spawn — hence 2k successors for k empty cells, every one at
player HUMAN with move tag RAND. -/
theorem C5_random_expansion (n : Node) (hp : n.player = Player.RANDOM)
    (h2048 : n.has2048 = false) :
    n.getSuccessors = specRandomSuccessors n ∧
    n.getSuccessors.length =
      2 * (cells16.filter
        (fun cell => getValue n.board cell.1 cell.2 = 0)).length ∧
    ∀ s ∈ n.getSuccessors, s.player = Player.HUMAN ∧ s.move = MoveType.RAND := by
  have hsucc : n.getSuccessors = specRandomSuccessors n := by
    unfold Node.getSuccessors specRandomSuccessors
    rw [h2048, hp]
    simp only [Bool.false_eq_true, if_false]
    exact flatMap_if_eq_filter cells16 _ _
  refine ⟨hsucc, ?_, ?_⟩
  · rw [hsucc]
    unfold specRandomSuccessors
    exact flatMap_pair_length _ _ _
  · intro s hs
    rw [hsucc] at hs
    unfold specRandomSuccessors at hs
    simp only [List.mem_flatMap] at hs
    obtain ⟨cell, _, hmem⟩ := hs
    simp only [List.mem_cons, List.mem_singleton] at hmem
    rcases hmem with h | h | h
    · rw [h]; exact ⟨rfl, rfl⟩
    · rw [h]; exact ⟨rfl, rfl⟩
    · cases h

/-- Witness for C5 at a concrete RANDOM node with two empty cells. -/
theorem C5_random_expansion_witness :
    ((Node.mk MoveType.START (packExps [1,2,1,2, 2,1,2,1, 1,2,1,2, 2,1,0,0])
        Player.RANDOM 5).player = Player.RANDOM ∧
     (Node.mk MoveType.START (packExps [1,2,1,2, 2,1,2,1, 1,2,1,2, 2,1,0,0])
        Player.RANDOM 5).has2048 = false) ∧
    ((Node.mk MoveType.START (packExps [1,2,1,2, 2,1,2,1, 1,2,1,2, 2,1,0,0])
        Player.RANDOM 5).getSuccessors =
      specRandomSuccessors (Node.mk MoveType.START
        (packExps [1,2,1,2, 2,1,2,1, 1,2,1,2, 2,1,0,0]) Player.RANDOM 5) ∧
     (Node.mk MoveType.START (packExps [1,2,1,2, 2,1,2,1, 1,2,1,2, 2,1,0,0])
        Player.RANDOM 5).getSuccessors.length =
      2 * (cells16.filter (fun cell => getValue
        (packExps [1,2,1,2, 2,1,2,1, 1,2,1,2, 2,1,0,0]) cell.1 cell.2 = 0)).length ∧
     ∀ s ∈ (Node.mk MoveType.START (packExps [1,2,1,2, 2,1,2,1, 1,2,1,2, 2,1,0,0])
        Player.RANDOM 5).getSuccessors,
       s.player = Player.HUMAN ∧ s.move = MoveType.RAND) := by
  exact ⟨⟨rfl, by decide⟩, C5_random_expansion _ rfl (by decide)⟩

/-! ## Score transition lemmas -/

theorem toInt16_le (z : Int) : toInt16 z ≤ 32767 := by
  unfold toInt16
  have := Int.emod_lt_of_pos (z + 2 ^ 15) (show (0:Int) < 2 ^ 16 by norm_num)
  omega

theorem toInt16_ge (z : Int) : -32768 ≤ toInt16 z := by
  unfold toInt16
  have := Int.emod_nonneg (z + 2 ^ 15) (show (2:Int) ^ 16 ≠ 0 by norm_num)
  omega

theorem processCell_score_le {values : Int → Int → Nat} {vr vc : Int}
    {st : MState} {cell : Int × Int} (h : st.score ≤ 32767) :
    (processCell values vr vc st cell).score ≤ 32767 := by
  unfold processCell
  dsimp only
  split_ifs with h1 h2 h3 h4 h5 <;>
    first
    | exact h
    | exact toInt16_le _
    | (dsimp only; omega)

theorem foldl_score_le {values : Int → Int → Nat} {vr vc : Int} :
    ∀ (l : List (Int × Int)) (st : MState), st.score ≤ 32767 →
      (l.foldl (processCell values vr vc) st).score ≤ 32767 := by
  intro l
  induction l with
  | nil => intro st h; exact h
  | cons x xs ih => intro st h; exact ih _ (processCell_score_le h)

theorem moveFull_score_le (raw : Nat) (m : Move) : (moveFull raw m).score ≤ 32767 :=
  foldl_score_le _ _ (by norm_num)

/-- C7 amended: the cumulative score is unchanged across RANDOM transitions,
and non-decreasing across HUMAN transitions provided the parent score is at
most 2^15 — the added delta of a kept slide is a nonnegative int16_t, hence at
most 2^15 - 1, so the uint16_t sum cannot wrap under that bound. -/
theorem C7_amended (n s : Node) (hs : s ∈ n.getSuccessors) :
    (n.player = Player.RANDOM → s.score = n.score) ∧
    (n.player = Player.HUMAN → n.score ≤ 32768 → n.score ≤ s.score) := by
  unfold Node.getSuccessors at hs
  by_cases h2048 : n.has2048
  · rw [if_pos h2048] at hs; cases hs
  · rw [if_neg h2048] at hs
    constructor
    · intro hp
      rw [hp] at hs
      simp only [List.mem_flatMap] at hs
      obtain ⟨cell, _, hmem⟩ := hs
      split_ifs at hmem
      · simp only [List.mem_cons, List.mem_singleton] at hmem
        rcases hmem with h | h | h
        · rw [h]; rfl
        · rw [h]; rfl
        · cases h
      · cases hmem
    · intro hp hbound
      rw [hp] at hs
      simp only [List.mem_flatMap] at hs
      obtain ⟨mv, _, hmem⟩ := hs
      split_ifs at hmem with hkeep
      · simp only [List.mem_singleton] at hmem
        have hle := moveFull_score_le n.board mv
        have htn : (moveFull n.board mv).score.toNat ≤ 32767 := by omega
        rw [hmem]
        simp only
        rw [Nat.mod_eq_of_lt (by omega)]
        omega
      · cases hmem

/-- Witness for C7 at a HUMAN parent with score 100 and its LEFT-slide child. -/
theorem C7_amended_witness :
    ((Node.mk MoveType.LEFT (packExps [2]) Player.RANDOM 104) ∈
      (Node.mk MoveType.START (packExps [1, 1]) Player.HUMAN 100).getSuccessors) ∧
    (((Node.mk MoveType.START (packExps [1, 1]) Player.HUMAN 100).player =
        Player.RANDOM →
      (Node.mk MoveType.LEFT (packExps [2]) Player.RANDOM 104).score =
        (Node.mk MoveType.START (packExps [1, 1]) Player.HUMAN 100).score) ∧
     ((Node.mk MoveType.START (packExps [1, 1]) Player.HUMAN 100).player =
        Player.HUMAN →
      (Node.mk MoveType.START (packExps [1, 1]) Player.HUMAN 100).score ≤ 32768 →
      (Node.mk MoveType.START (packExps [1, 1]) Player.HUMAN 100).score ≤
        (Node.mk MoveType.LEFT (packExps [2]) Player.RANDOM 104).score)) := by
  exact ⟨by decide, C7_amended _ _ (by decide)⟩

/-! ## Heuristic bounds -/

theorem fillExponents_le_15 (raw : Nat) (r c : Int) : fillExponents raw r c ≤ 15 := by
  rw [fillExponents_eq]; exact getExp_le_15 raw r c

theorem refWalk_le_180 (g : Int → Int → Nat)
    (hb : ∀ cell ∈ cells16, g cell.1 cell.2 ≤ 15) :
    refMonotonicityWalk g ≤ 180 := by
  have hline := gridLines_le hb
  have w0 : (walkDeltas (fun c => g 0 c)).1 + (walkDeltas (fun c => g 0 c)).2 ≤ 45 :=
    walkDeltas_le (hline 0 (by simp))
  have w1 : (walkDeltas (fun c => g 1 c)).1 + (walkDeltas (fun c => g 1 c)).2 ≤ 45 :=
    walkDeltas_le (hline 1 (by simp))
  have w2 : (walkDeltas (fun c => g 2 c)).1 + (walkDeltas (fun c => g 2 c)).2 ≤ 45 :=
    walkDeltas_le (hline 2 (by simp))
  have w3 : (walkDeltas (fun c => g 3 c)).1 + (walkDeltas (fun c => g 3 c)).2 ≤ 45 :=
    walkDeltas_le (hline 3 (by simp))
  have v0 := walkDeltas_le (show ∀ i ∈ [(0:Int),1,2,3], (fun r => g r 0) i ≤ 15 by
    intro i hi; exact hline i hi 0 (by simp))
  have v1 := walkDeltas_le (show ∀ i ∈ [(0:Int),1,2,3], (fun r => g r 1) i ≤ 15 by
    intro i hi; exact hline i hi 1 (by simp))
  have v2 := walkDeltas_le (show ∀ i ∈ [(0:Int),1,2,3], (fun r => g r 2) i ≤ 15 by
    intro i hi; exact hline i hi 2 (by simp))
  have v3 := walkDeltas_le (show ∀ i ∈ [(0:Int),1,2,3], (fun r => g r 3) i ≤ 15 by
    intro i hi; exact hline i hi 3 (by simp))
  unfold refMonotonicityWalk
  simp only [List.map, List.sum_cons, List.sum_nil]
  omega

theorem calcMono_le_180 (raw : Nat) :
    calculateMonotonicity (fillExponents raw) ≤ 180 := by
  rw [monotonicity_eq_walk _ (fun cell _ => fillExponents_le_15 raw cell.1 cell.2)]
  exact refWalk_le_180 _ (fun cell _ => fillExponents_le_15 raw cell.1 cell.2)

theorem foldl_le_255 {α : Type} (f : Nat → α → Nat)
    (hf : ∀ a x, a ≤ 255 → f a x ≤ 255) :
    ∀ (l : List α) (acc : Nat), acc ≤ 255 → l.foldl f acc ≤ 255 := by
  intro l
  induction l with
  | nil => intro acc h; exact h
  | cons x xs ih => intro acc h; exact ih _ (hf acc x h)

theorem calcSmooth_le_255 (g : Int → Int → Nat) : calculateSmoothness g ≤ 255 := by
  unfold calculateSmoothness
  apply foldl_le_255
  · intro a cell ha
    split_ifs
    · apply foldl_le_255
      · intro b dir hb
        dsimp only
        split_ifs
        · omega
        · omega
        · exact hb
      · exact ha
    · exact ha
  · norm_num

theorem largestExponentAux_le :
    ∀ (fuel : Nat) (biggest board : Nat), biggest ≤ 15 →
      largestExponentAux biggest board fuel ≤ 15 := by
  intro fuel
  induction fuel with
  | zero => intro b board h; exact h
  | succ f ih =>
    intro b board h
    unfold largestExponentAux
    split_ifs
    · exact h
    · exact ih _ _ (by
        have : board &&& 15 ≤ 15 := Nat.and_le_right
        omega)

theorem getLargestExponent_le (board : Nat) : getLargestExponent board ≤ 15 :=
  largestExponentAux_le 16 0 board (by norm_num)

theorem numEmptySpaces_le (board : Nat) : numEmptySpaces board ≤ 16 :=
  Nat.sub_le _ _

/-- The non-score part of the heuristic is between 5850 and 32220. -/
theorem heuristicStats_bounds (raw : Nat) :
    (5850 : Int) ≤ 10 * (240 - (calculateSmoothness (fillExponents raw) : Int)) +
        100 * (240 - (calculateMonotonicity (fillExponents raw) : Int)) +
        270 * (numEmptySpaces raw : Int) +
        100 * (getLargestExponent raw : Int) ∧
      10 * (240 - (calculateSmoothness (fillExponents raw) : Int)) +
        100 * (240 - (calculateMonotonicity (fillExponents raw) : Int)) +
        270 * (numEmptySpaces raw : Int) +
        100 * (getLargestExponent raw : Int) ≤ 32220 := by
  have hs := calcSmooth_le_255 (fillExponents raw)
  have hm := calcMono_le_180 raw
  have he := numEmptySpaces_le raw
  have hl := getLargestExponent_le raw
  omega

/-- getHeuristic with the let-bindings expanded, outside the lost-terminal case. -/
theorem getHeuristic_expand (n : Node) (h : ¬ (n.isGameOver = true ∧ ¬ n.has2048 = true)) :
    n.getHeuristic = (if n.isGameOver = true then (n.score : Int) * 2 ^ 47 else 0) +
      (10 * (240 - (calculateSmoothness (fillExponents n.board) : Int)) +
       100 * (240 - (calculateMonotonicity (fillExponents n.board) : Int)) +
       270 * (numEmptySpaces n.board : Int) +
       100 * (getLargestExponent n.board : Int)) := by
  unfold Node.getHeuristic
  rw [if_neg h]
  ring

/-- C4 amended: a terminal node holding 2048 whose score is at least 1 has
heuristic at least 2^47; a terminal node without 2048 has heuristic exactly 0;
a non-terminal node's heuristic lies strictly between 0 and 2^47.  (The only
change from the claim is the score ≥ 1 proviso on the winning-terminal case,
forced by the score-0 counterexample.) -/
theorem C4_amended (n : Node) :
    (n.isGameOver = true → n.has2048 = true → 1 ≤ n.score →
      2 ^ 47 ≤ n.getHeuristic) ∧
    (n.isGameOver = true → n.has2048 = false → n.getHeuristic = 0) ∧
    (n.isGameOver = false → 0 < n.getHeuristic ∧ n.getHeuristic < 2 ^ 47) := by
  obtain ⟨hlo, hhi⟩ := heuristicStats_bounds n.board
  refine ⟨?_, ?_, ?_⟩
  · intro hgo h2048 hscore
    rw [getHeuristic_expand n (by simp [hgo, h2048])]
    rw [if_pos hgo]
    have h1 : (2 ^ 47 : Int) ≤ (n.score : Int) * 2 ^ 47 := by
      have : (1 : Int) ≤ (n.score : Int) := by exact_mod_cast hscore
      nlinarith
    omega
  · intro hgo h2048
    unfold Node.getHeuristic
    rw [if_pos (by simp [hgo, h2048])]
  · intro hgo
    rw [getHeuristic_expand n (by simp [hgo])]
    rw [if_neg (by simp [hgo])]
    constructor
    · omega
    · omega

/-- Witness for C4 amended: a terminal 2048 node with score 1 reaches 2^47. -/
theorem C4_amended_witness :
    (Node.mk MoveType.RAND 11 Player.HUMAN 1).isGameOver = true ∧
    (Node.mk MoveType.RAND 11 Player.HUMAN 1).has2048 = true ∧
    1 ≤ (Node.mk MoveType.RAND 11 Player.HUMAN 1).score ∧
    2 ^ 47 ≤ (Node.mk MoveType.RAND 11 Player.HUMAN 1).getHeuristic := by
  exact ⟨by decide, by decide, by decide,
    (C4_amended _).1 (by decide) (by decide) (by decide)⟩

/-! ## Iterative-deepening deadline behaviour -/

theorem deadlinePred_two_eq : deadlinePred true 2 2 = depthPred 2 := by
  funext node depth
  simp [deadlinePred, depthPred]

theorem suggestMove_overdeadline_aborts (n : Node) (abf : Nat) :
    (suggestMove (abf + 1) n (deadlinePred true 2 3)).tc =
      TerminationCondition.ABORT := by
  have hc : deadlinePred true 2 3 n 0 = TerminationCondition.ABORT := by
    simp [deadlinePred]
  simp [suggestMove, alphabeta, hc]

/-- C8: with the deadline already passed (the predicate aborts every iteration
past the starting floor), suggestMoveWithDeadline returns exactly
suggestMove(node, maxDepth = 2): the maxDepth = 2 iteration is exempt from the
abort test, the maxDepth = 3 iteration aborts at its first predicate call, and
the retained best suggestion is the completed depth-2 result. -/
theorem C8_deadline_returns_depth2 (n : Node) (lf abf : Nat) :
    suggestMoveWithDeadline true n (lf + 2) (abf + 1) =
      suggestMoveD (abf + 1) n 2 := by
  unfold suggestMoveWithDeadline
  rw [show lf + 2 = (lf + 1) + 1 from rfl]
  rw [deadlineLoop]
  simp only [show ¬ (2 < 2) from by omega, and_false, if_false]
  rw [deadlineLoop]
  rw [suggestMove_overdeadline_aborts n abf]
  simp only [show (2:Nat) < 3 from by omega, and_true]
  rw [if_pos trivial]
  rw [deadlinePred_two_eq]
  rfl

/-! ## findFinalLocation walk specifications -/

theorem fflCol_pos_spec (raw : Nat) (values : Int → Int → Nat)
    (merged : Int → Int → Bool) (row col : Int) :
    ∀ (fuel : Nat) (c : Int), col < c → c ≤ 4 → (4 - c).toNat < fuel →
      (∀ j, col < j → j < c → getExponentValue raw row j = 0) →
      (fflCol raw values merged row col 1 4 c fuel).1 = row ∧
      col ≤ (fflCol raw values merged row col 1 4 c fuel).2 ∧
      (fflCol raw values merged row col 1 4 c fuel).2 ≤ 3 ∧
      (col < (fflCol raw values merged row col 1 4 c fuel).2 →
        ((¬ merged row (fflCol raw values merged row col 1 4 c fuel).2 ∧
            getExponentValue raw row (fflCol raw values merged row col 1 4 c fuel).2 =
              values row col) ∨
          getExponentValue raw row (fflCol raw values merged row col 1 4 c fuel).2 = 0)) := by
  intro fuel
  induction fuel with
  | zero => intro c h1 h2 h3 h4; omega
  | succ f ih =>
    intro c h1 h2 h3 hemp
    unfold fflCol
    by_cases hc4 : c = 4
    · rw [if_pos hc4]
      refine ⟨rfl, by norm_num; omega, by norm_num, ?_⟩
      intro hlt
      norm_num at hlt ⊢
      exact Or.inr (hemp 3 hlt (by omega))
    · rw [if_neg hc4]
      by_cases hmv : ¬ merged row c ∧ getExponentValue raw row c = values row col
      · rw [if_pos hmv]
        exact ⟨rfl, by omega, by omega, fun _ => Or.inl hmv⟩
      · rw [if_neg hmv]
        by_cases hv : getExponentValue raw row c ≠ 0
        · rw [if_pos hv]
          refine ⟨rfl, by omega, by omega, ?_⟩
          intro hlt
          exact Or.inr (hemp (c - 1) hlt (by omega))
        · rw [if_neg hv]
          push_neg at hv
          exact ih (c + 1) (by omega) (by omega) (by omega)
            (fun j hj1 hj2 => by
              rcases Nat.lt_or_ge 0 0 with h | h
              · omega
              · by_cases hjc : j = c
                · rw [hjc]; exact hv
                · exact hemp j hj1 (by omega))

theorem fflCol_neg_spec (raw : Nat) (values : Int → Int → Nat)
    (merged : Int → Int → Bool) (row col : Int) :
    ∀ (fuel : Nat) (c : Int), c < col → -1 ≤ c → (c + 1).toNat < fuel →
      (∀ j, c < j → j < col → getExponentValue raw row j = 0) →
      (fflCol raw values merged row col (-1) (-1) c fuel).1 = row ∧
      (fflCol raw values merged row col (-1) (-1) c fuel).2 ≤ col ∧
      0 ≤ (fflCol raw values merged row col (-1) (-1) c fuel).2 ∧
      ((fflCol raw values merged row col (-1) (-1) c fuel).2 < col →
        ((¬ merged row (fflCol raw values merged row col (-1) (-1) c fuel).2 ∧
            getExponentValue raw row (fflCol raw values merged row col (-1) (-1) c fuel).2 =
              values row col) ∨
          getExponentValue raw row (fflCol raw values merged row col (-1) (-1) c fuel).2 = 0)) := by
  intro fuel
  induction fuel with
  | zero => intro c h1 h2 h3 h4; omega
  | succ f ih =>
    intro c h1 h2 h3 hemp
    unfold fflCol
    by_cases hc4 : c = -1
    · rw [if_pos hc4]
      refine ⟨rfl, by norm_num; omega, by norm_num, ?_⟩
      intro hlt
      norm_num at hlt ⊢
      exact Or.inr (hemp 0 (by omega) hlt)
    · rw [if_neg hc4]
      by_cases hmv : ¬ merged row c ∧ getExponentValue raw row c = values row col
      · rw [if_pos hmv]
        exact ⟨rfl, by omega, by omega, fun _ => Or.inl hmv⟩
      · rw [if_neg hmv]
        by_cases hv : getExponentValue raw row c ≠ 0
        · rw [if_pos hv]
          refine ⟨rfl, by omega, by omega, ?_⟩
          intro hlt
          have : c - (-1) = c + 1 := by ring
          rw [this] at hlt ⊢
          exact Or.inr (hemp (c + 1) (by omega) hlt)
        · rw [if_neg hv]
          push_neg at hv
          exact ih (c + -1) (by omega) (by omega) (by omega)
            (fun j hj1 hj2 => by
              by_cases hjc : j = c
              · rw [hjc]; exact hv
              · exact hemp j (by omega) hj2)

theorem fflRow_pos_spec (raw : Nat) (values : Int → Int → Nat)
    (merged : Int → Int → Bool) (row col : Int) :
    ∀ (fuel : Nat) (r : Int), row < r → r ≤ 4 → (4 - r).toNat < fuel →
      (∀ j, row < j → j < r → getExponentValue raw j col = 0) →
      (fflRow raw values merged row col 1 4 r fuel).2 = col ∧
      row ≤ (fflRow raw values merged row col 1 4 r fuel).1 ∧
      (fflRow raw values merged row col 1 4 r fuel).1 ≤ 3 ∧
      (row < (fflRow raw values merged row col 1 4 r fuel).1 →
        ((¬ merged (fflRow raw values merged row col 1 4 r fuel).1 col ∧
            getExponentValue raw (fflRow raw values merged row col 1 4 r fuel).1 col =
              values row col) ∨
          getExponentValue raw (fflRow raw values merged row col 1 4 r fuel).1 col = 0)) := by
  intro fuel
  induction fuel with
  | zero => intro r h1 h2 h3 h4; omega
  | succ f ih =>
    intro r h1 h2 h3 hemp
    unfold fflRow
    by_cases hr4 : r = 4
    · rw [if_pos hr4]
      refine ⟨rfl, by norm_num; omega, by norm_num, ?_⟩
      intro hlt
      norm_num at hlt ⊢
      exact Or.inr (hemp 3 hlt (by omega))
    · rw [if_neg hr4]
      by_cases hmv : ¬ merged r col ∧ getExponentValue raw r col = values row col
      · rw [if_pos hmv]
        exact ⟨rfl, by omega, by omega, fun _ => Or.inl hmv⟩
      · rw [if_neg hmv]
        by_cases hv : getExponentValue raw r col ≠ 0
        · rw [if_pos hv]
          refine ⟨rfl, by omega, by omega, ?_⟩
          intro hlt
          exact Or.inr (hemp (r - 1) hlt (by omega))
        · rw [if_neg hv]
          push_neg at hv
          exact ih (r + 1) (by omega) (by omega) (by omega)
            (fun j hj1 hj2 => by
              by_cases hjr : j = r
              · rw [hjr]; exact hv
              · exact hemp j hj1 (by omega))

theorem fflRow_neg_spec (raw : Nat) (values : Int → Int → Nat)
    (merged : Int → Int → Bool) (row col : Int) :
    ∀ (fuel : Nat) (r : Int), r < row → -1 ≤ r → (r + 1).toNat < fuel →
      (∀ j, r < j → j < row → getExponentValue raw j col = 0) →
      (fflRow raw values merged row col (-1) (-1) r fuel).2 = col ∧
      (fflRow raw values merged row col (-1) (-1) r fuel).1 ≤ row ∧
      0 ≤ (fflRow raw values merged row col (-1) (-1) r fuel).1 ∧
      ((fflRow raw values merged row col (-1) (-1) r fuel).1 < row →
        ((¬ merged (fflRow raw values merged row col (-1) (-1) r fuel).1 col ∧
            getExponentValue raw (fflRow raw values merged row col (-1) (-1) r fuel).1 col =
              values row col) ∨
          getExponentValue raw (fflRow raw values merged row col (-1) (-1) r fuel).1 col = 0)) := by
  intro fuel
  induction fuel with
  | zero => intro r h1 h2 h3 h4; omega
  | succ f ih =>
    intro r h1 h2 h3 hemp
    unfold fflRow
    by_cases hr4 : r = -1
    · rw [if_pos hr4]
      refine ⟨rfl, by norm_num; omega, by norm_num, ?_⟩
      intro hlt
      norm_num at hlt ⊢
      exact Or.inr (hemp 0 (by omega) hlt)
    · rw [if_neg hr4]
      by_cases hmv : ¬ merged r col ∧ getExponentValue raw r col = values row col
      · rw [if_pos hmv]
        exact ⟨rfl, by omega, by omega, fun _ => Or.inl hmv⟩
      · rw [if_neg hmv]
        by_cases hv : getExponentValue raw r col ≠ 0
        · rw [if_pos hv]
          refine ⟨rfl, by omega, by omega, ?_⟩
          intro hlt
          have : r - (-1) = r + 1 := by ring
          rw [this] at hlt ⊢
          exact Or.inr (hemp (r + 1) (by omega) hlt)
        · rw [if_neg hv]
          push_neg at hv
          exact ih (r + -1) (by omega) (by omega) (by omega)
            (fun j hj1 hj2 => by
              by_cases hjr : j = r
              · rw [hjr]; exact hv
              · exact hemp j (by omega) hj2)

theorem fflSpec_RIGHT : fflSpecP 0 1 ordRIGHT := by
  intro raw values merged r c hin
  obtain ⟨hr0, hr4, hc0, hc4⟩ := hin
  unfold findFinalLocation
  by_cases hc3 : c = 3
  · left
    rw [if_pos (by omega)]
  · rw [if_neg (by omega)]
    rw [if_neg (show ¬ ((0:Int) ≠ 0) by simp)]
    simp only [show ¬ ((1:Int) < 0) from by norm_num, if_false]
    obtain ⟨e1, e2, e3, e4⟩ := fflCol_pos_spec raw values merged r c 5 (c + 1)
      (by omega) (by omega) (by omega) (by omega)
    by_cases heq : fflCol raw values merged r c 1 4 (c + 1) 5 = (r, c)
    · left; exact heq
    · right
      have hne : c < (fflCol raw values merged r c 1 4 (c + 1) 5).2 := by
        by_cases h2 : (fflCol raw values merged r c 1 4 (c + 1) 5).2 = c
        · exfalso
          apply heq
          exact Prod.ext_iff.mpr ⟨e1, h2⟩
        · omega
      refine ⟨⟨by omega, by omega, by omega, by omega⟩, ⟨e1, hne⟩, ?_⟩
      rw [e1]
      exact e4 hne

theorem fflSpec_LEFT : fflSpecP 0 (-1) ordLEFT := by
  intro raw values merged r c hin
  obtain ⟨hr0, hr4, hc0, hc4⟩ := hin
  unfold findFinalLocation
  by_cases hc3 : c = 0
  · left
    rw [if_pos (by omega)]
  · rw [if_neg (by omega)]
    rw [if_neg (show ¬ ((0:Int) ≠ 0) by simp)]
    simp only [show ((-1:Int) < 0) from by norm_num, if_true]
    obtain ⟨e1, e2, e3, e4⟩ := fflCol_neg_spec raw values merged r c 5 (c + -1)
      (by omega) (by omega) (by omega) (by omega)
    by_cases heq : fflCol raw values merged r c (-1) (-1) (c + -1) 5 = (r, c)
    · left; exact heq
    · right
      have hne : (fflCol raw values merged r c (-1) (-1) (c + -1) 5).2 < c := by
        by_cases h2 : (fflCol raw values merged r c (-1) (-1) (c + -1) 5).2 = c
        · exfalso
          apply heq
          exact Prod.ext_iff.mpr ⟨e1, h2⟩
        · omega
      refine ⟨⟨by omega, by omega, by omega, by omega⟩, ⟨e1, hne⟩, ?_⟩
      rw [e1]
      exact e4 hne

theorem fflSpec_DOWN : fflSpecP 1 0 ordDOWN := by
  intro raw values merged r c hin
  obtain ⟨hr0, hr4, hc0, hc4⟩ := hin
  unfold findFinalLocation
  by_cases hr3 : r = 3
  · left
    rw [if_pos (by omega)]
  · rw [if_neg (by omega)]
    rw [if_pos (show ((1:Int) ≠ 0) by norm_num)]
    simp only [show ¬ ((1:Int) < 0) from by norm_num, if_false]
    obtain ⟨e1, e2, e3, e4⟩ := fflRow_pos_spec raw values merged r c 5 (r + 1)
      (by omega) (by omega) (by omega) (by omega)
    by_cases heq : fflRow raw values merged r c 1 4 (r + 1) 5 = (r, c)
    · left; exact heq
    · right
      have hne : r < (fflRow raw values merged r c 1 4 (r + 1) 5).1 := by
        by_cases h2 : (fflRow raw values merged r c 1 4 (r + 1) 5).1 = r
        · exfalso
          apply heq
          exact Prod.ext_iff.mpr ⟨h2, e1⟩
        · omega
      refine ⟨⟨by omega, by omega, by omega, by omega⟩, ⟨e1, hne⟩, ?_⟩
      rw [e1]
      exact e4 hne

theorem fflSpec_UP : fflSpecP (-1) 0 ordUP := by
  intro raw values merged r c hin
  obtain ⟨hr0, hr4, hc0, hc4⟩ := hin
  unfold findFinalLocation
  by_cases hr3 : r = 0
  · left
    rw [if_pos (by omega)]
  · rw [if_neg (by omega)]
    rw [if_pos (show ((-1:Int) ≠ 0) by norm_num)]
    simp only [show ((-1:Int) < 0) from by norm_num, if_true]
    obtain ⟨e1, e2, e3, e4⟩ := fflRow_neg_spec raw values merged r c 5 (r + -1)
      (by omega) (by omega) (by omega) (by omega)
    by_cases heq : fflRow raw values merged r c (-1) (-1) (r + -1) 5 = (r, c)
    · left; exact heq
    · right
      have hne : (fflRow raw values merged r c (-1) (-1) (r + -1) 5).1 < r := by
        by_cases h2 : (fflRow raw values merged r c (-1) (-1) (r + -1) 5).1 = r
        · exfalso
          apply heq
          exact Prod.ext_iff.mpr ⟨h2, e1⟩
        · omega
      refine ⟨⟨by omega, by omega, by omega, by omega⟩, ⟨e1, hne⟩, ?_⟩
      rw [e1]
      exact e4 hne

/-! ## processCell characterization and sum lemmas -/

theorem processCell_skip0 {values : Int → Int → Nat} {vr vc : Int}
    {st : MState} {cell : Int × Int} (h : values cell.1 cell.2 = 0) :
    processCell values vr vc st cell = st := by
  unfold processCell
  rw [if_pos h]

theorem processCell_skip1 {values : Int → Int → Nat} {vr vc : Int}
    {st : MState} {cell : Int × Int} (h : values cell.1 cell.2 ≠ 0)
    (hfl : findFinalLocation st.raw values st.merged cell.1 cell.2 vr vc = cell) :
    processCell values vr vc st cell = st := by
  unfold processCell
  rw [if_neg h, if_pos hfl]

theorem processCell_merge {values : Int → Int → Nat} {vr vc : Int}
    {st : MState} {cell : Int × Int} (h : values cell.1 cell.2 ≠ 0)
    (hfl : findFinalLocation st.raw values st.merged cell.1 cell.2 vr vc ≠ cell)
    (hov : getExponentValue st.raw
      (findFinalLocation st.raw values st.merged cell.1 cell.2 vr vc).1
      (findFinalLocation st.raw values st.merged cell.1 cell.2 vr vc).2 ≠ 0) :
    processCell values vr vc st cell =
      { raw := setValue (setValue st.raw
          (findFinalLocation st.raw values st.merged cell.1 cell.2 vr vc).1
          (findFinalLocation st.raw values st.merged cell.1 cell.2 vr vc).2
          (getExponentValue st.raw
            (findFinalLocation st.raw values st.merged cell.1 cell.2 vr vc).1
            (findFinalLocation st.raw values st.merged cell.1 cell.2 vr vc).2 + 1))
          cell.1 cell.2 0,
        merged := fun r c =>
          if r = (findFinalLocation st.raw values st.merged cell.1 cell.2 vr vc).1 ∧
             c = (findFinalLocation st.raw values st.merged cell.1 cell.2 vr vc).2
          then true else st.merged r c,
        score := if st.score < 0 then
            toInt16 (2 * 2 ^ getExponentValue st.raw
              (findFinalLocation st.raw values st.merged cell.1 cell.2 vr vc).1
              (findFinalLocation st.raw values st.merged cell.1 cell.2 vr vc).2)
          else toInt16 (st.score + toInt16 (2 * 2 ^ getExponentValue st.raw
              (findFinalLocation st.raw values st.merged cell.1 cell.2 vr vc).1
              (findFinalLocation st.raw values st.merged cell.1 cell.2 vr vc).2)),
        moved := true,
        mergeSum := st.mergeSum + 2 ^ (getExponentValue st.raw
          (findFinalLocation st.raw values st.merged cell.1 cell.2 vr vc).1
          (findFinalLocation st.raw values st.merged cell.1 cell.2 vr vc).2 + 1) } := by
  unfold processCell
  rw [if_neg h, if_neg hfl]
  simp only [hov, ne_eq, not_false_eq_true, if_true, ite_true]

theorem processCell_translate {values : Int → Int → Nat} {vr vc : Int}
    {st : MState} {cell : Int × Int} (h : values cell.1 cell.2 ≠ 0)
    (hfl : findFinalLocation st.raw values st.merged cell.1 cell.2 vr vc ≠ cell)
    (hov : getExponentValue st.raw
      (findFinalLocation st.raw values st.merged cell.1 cell.2 vr vc).1
      (findFinalLocation st.raw values st.merged cell.1 cell.2 vr vc).2 = 0) :
    processCell values vr vc st cell =
      { raw := setValue (setValue st.raw
          (findFinalLocation st.raw values st.merged cell.1 cell.2 vr vc).1
          (findFinalLocation st.raw values st.merged cell.1 cell.2 vr vc).2
          (values cell.1 cell.2)) cell.1 cell.2 0,
        merged := st.merged,
        score := if st.score < 0 then 0 else toInt16 (st.score + 0),
        moved := true,
        mergeSum := st.mergeSum } := by
  unfold processCell
  rw [if_neg h, if_neg hfl]
  simp only [hov, ne_eq, not_true_eq_false, if_false, ite_false]

theorem mem_cells16 {r c : Int} (h : inR r c) : (r, c) ∈ cells16 := by
  obtain ⟨h1, h2, h3, h4⟩ := h
  have hr : r = 0 ∨ r = 1 ∨ r = 2 ∨ r = 3 := by omega
  have hc : c = 0 ∨ c = 1 ∨ c = 2 ∨ c = 3 := by omega
  rcases hr with h | h | h | h <;> rcases hc with h' | h' | h' | h' <;>
    rw [h, h'] <;> simp [cells16]

theorem sum_map_update {α : Type} [DecidableEq α] (l : List α) (f g : α → Nat)
    (x : α) (hnd : l.Nodup) (hx : x ∈ l)
    (hsame : ∀ y ∈ l, y ≠ x → g y = f y) :
    (l.map g).sum + f x = (l.map f).sum + g x := by
  induction l with
  | nil => cases hx
  | cons a as ih =>
    rcases List.mem_cons.mp hx with hax | hmem
    · rw [← hax]
      have hrest : ∀ y ∈ as, g y = f y := by
        intro y hy
        apply hsame y (List.mem_cons_of_mem a hy)
        intro hyx
        rw [hax] at hyx
        rw [hyx] at hy
        exact (List.nodup_cons.mp hnd).1 hy
      have : (as.map g).sum = (as.map f).sum := by
        clear ih hsame hx hnd
        induction as with
        | nil => rfl
        | cons b bs ihb =>
          simp only [List.map_cons, List.sum_cons]
          rw [hrest b (List.mem_cons_self b bs),
            ihb (fun y hy => hrest y (List.mem_cons_of_mem b hy))]
      simp only [List.map_cons, List.sum_cons, this]
      omega
    · have hax : a ≠ x := by
        intro hcon
        rw [hcon] at hnd
        exact (List.nodup_cons.mp hnd).1 hmem
      have := ih (List.nodup_cons.mp hnd).2 hmem
        (fun y hy hyx => hsame y (List.mem_cons_of_mem a hy) hyx)
      simp only [List.map_cons, List.sum_cons]
      rw [hsame a (List.mem_cons_self a as) hax]
      omega

theorem totalValue_setValue {raw : Nat} (hraw : raw < 2 ^ 64) {r c : Int}
    (hr : inR r c) {e : Nat} (he : e ≤ 15) :
    totalValue (setValue raw r c e) + tileVal (getExponentValue raw r c) =
      totalValue raw + tileVal e := by
  unfold totalValue
  have := sum_map_update cells16
    (fun cell => tileVal (getExponentValue raw cell.1 cell.2))
    (fun cell => tileVal (getExponentValue (setValue raw r c e) cell.1 cell.2))
    (r, c) (by decide) (mem_cells16 hr)
    (fun y hy hne => by
      have hyin : inR y.1 y.2 := by
        fin_cases hy <;> decide
      have hne2 : (y.1, y.2) ≠ (r, c) := by
        intro hcon
        apply hne
        calc y = (y.1, y.2) := rfl
        _ = (r, c) := hcon
      show tileVal (getExponentValue (setValue raw r c e) y.1 y.2) =
        tileVal (getExponentValue raw y.1 y.2)
      rw [getExp_setValue_other hraw hr hyin (by
        intro hcon
        apply hne2
        injection hcon with a b
        rw [a, b]) he])
  dsimp only at this
  rw [getExp_setValue_self hraw hr he] at this
  omega

theorem toInt16_eq_self {z : Int} (h1 : -32768 ≤ z) (h2 : z ≤ 32767) :
    toInt16 z = z := by
  unfold toInt16
  omega

/-! ## The slide-fold invariant -/

theorem moveInv_step
    (raw0 E : Nat) (hraw0 : raw0 < 2 ^ 64) (hE14 : E ≤ 14)
    (hE : ∀ r c : Int, inR r c → getExponentValue raw0 r c ≤ E)
    (vr vc : Int) (ord : Int × Int → Int × Int → Prop)
    (hspec : fflSpecP vr vc ord)
    (cur : Int × Int) (rest : List (Int × Int))
    (hcur : inR cur.1 cur.2)
    (hrest_in : ∀ y ∈ rest, inR y.1 y.2)
    (hrest_ord : ∀ y ∈ rest, ¬ ord y cur)
    (hcur_rest : cur ∉ rest)
    (hirr : ¬ ord cur cur)
    (hlen : rest.length ≤ 15)
    (st : MState) (hinv : MoveInv raw0 E st (cur :: rest)) :
    MoveInv raw0 E (processCell (fillExponents raw0) vr vc st cur) rest := by
  obtain ⟨rawLt, pristine, total, notMovedRaw, notMovedSum, sumBound, scoreOk⟩ := hinv
  have hBmono : (2:Nat) ^ (E + 1) ≤ 2 ^ 15 :=
    Nat.pow_le_pow_right (by norm_num) (by omega)
  have hsumStep : st.mergeSum ≤ (16 - (rest.length + 1)) * 2 ^ (E + 1) := by
    simpa using sumBound
  have hsum_mono : (16 - (rest.length + 1)) * 2 ^ (E + 1) + 2 ^ (E + 1) ≤
      (16 - rest.length) * 2 ^ (E + 1) := by
    have h16 : 16 - rest.length = (16 - (rest.length + 1)) + 1 := by omega
    rw [h16, Nat.add_mul, Nat.one_mul]
  have hjk : (16 - (rest.length + 1)) * 2 ^ (E + 1) ≤
      (16 - rest.length) * 2 ^ (E + 1) :=
    Nat.mul_le_mul (by omega) (Nat.le_refl _)
  by_cases hv0 : fillExponents raw0 cur.1 cur.2 = 0
  · rw [processCell_skip0 hv0]
    exact ⟨rawLt, fun y hy => pristine y (List.mem_cons_of_mem cur hy), total,
      notMovedRaw, notMovedSum, le_trans hsumStep hjk, scoreOk⟩
  · have hv_raw0 : fillExponents raw0 cur.1 cur.2 = getExponentValue raw0 cur.1 cur.2 :=
      fillExponents_eq raw0 cur.1 cur.2
    have hvE : fillExponents raw0 cur.1 cur.2 ≤ E := by
      rw [hv_raw0]; exact hE cur.1 cur.2 hcur
    have hcur_pristine : getExponentValue st.raw cur.1 cur.2 =
        fillExponents raw0 cur.1 cur.2 := by
      rw [hv_raw0]
      exact pristine cur (List.mem_cons_self cur rest)
    rcases hspec st.raw (fillExponents raw0) st.merged cur.1 cur.2 hcur with heq | hspec2
    · rw [processCell_skip1 hv0 heq]
      exact ⟨rawLt, fun y hy => pristine y (List.mem_cons_of_mem cur hy), total,
        notMovedRaw, notMovedSum, le_trans hsumStep hjk, scoreOk⟩
    · obtain ⟨hflin, hflord, hflcond⟩ := hspec2
      set fl := findFinalLocation st.raw (fillExponents raw0) st.merged cur.1 cur.2 vr vc
        with hfl_def
      have hflne : fl ≠ cur := by
        intro hcon
        rw [hcon] at hflord
        exact hirr hflord
      have hfl_rest : fl ∉ rest := fun hmem => hrest_ord fl hmem hflord
      have hflne2 : (fl.1, fl.2) ≠ (cur.1, cur.2) := by
        intro hcon
        apply hflne
        injection hcon with a b
        exact Prod.ext a b
      by_cases hov : getExponentValue st.raw fl.1 fl.2 ≠ 0
      · -- merge
        have hw_eq : getExponentValue st.raw fl.1 fl.2 = fillExponents raw0 cur.1 cur.2 := by
          rcases hflcond with ⟨_, h⟩ | h
          · exact h
          · exact absurd h hov
        rw [processCell_merge hv0 hflne hov]
        set w := getExponentValue st.raw fl.1 fl.2 with hw_def
        have hwE : w ≤ E := by rw [hw_eq]; exact hvE
        have hw15 : w + 1 ≤ 15 := by omega
        have hraw1_lt : setValue st.raw fl.1 fl.2 (w + 1) < 2 ^ 64 :=
          setValue_lt rawLt _ _ _
        refine ⟨setValue_lt hraw1_lt _ _ _, ?_, ?_, ?_, ?_, ?_, ?_⟩
        · -- pristine
          intro y hy
          have hyin := hrest_in y hy
          have hy_ne_cur : (cur.1, cur.2) ≠ (y.1, y.2) := by
            intro hcon
            apply hcur_rest
            have : cur = y := by
              calc cur = (cur.1, cur.2) := rfl
              _ = (y.1, y.2) := hcon
              _ = y := rfl
            rw [this]; exact hy
          have hy_ne_fl : (fl.1, fl.2) ≠ (y.1, y.2) := by
            intro hcon
            apply hfl_rest
            have : fl = y := by
              calc fl = (fl.1, fl.2) := rfl
              _ = (y.1, y.2) := hcon
              _ = y := rfl
            rw [this]; exact hy
          rw [getExp_setValue_other hraw1_lt hcur hyin hy_ne_cur (by omega),
            getExp_setValue_other rawLt hflin hyin hy_ne_fl hw15]
          exact pristine y (List.mem_cons_of_mem cur hy)
        · -- total
          have h1 := totalValue_setValue rawLt hflin hw15
          have h2 := totalValue_setValue hraw1_lt hcur (show (0:Nat) ≤ 15 by norm_num)
          rw [getExp_setValue_other rawLt hflin hcur hflne2 hw15] at h2
          rw [hcur_pristine, ← hw_eq] at h2
          have hw0 : w ≠ 0 := hov
          have htv : tileVal w = 2 ^ w := by unfold tileVal; rw [if_neg hw0]
          have htv1 : tileVal (w + 1) = 2 ^ (w + 1) := by
            unfold tileVal; rw [if_neg (by omega)]
          have htv0 : tileVal 0 = 0 := by unfold tileVal; rw [if_pos rfl]
          rw [htv, htv1] at h1
          rw [htv0, htv] at h2
          have hp2 : (2:Nat) ^ (w + 1) = 2 ^ w + 2 ^ w := by
            rw [Nat.pow_succ]; omega
          show totalValue (setValue (setValue st.raw fl.1 fl.2 (w + 1)) cur.1 cur.2 0) =
            totalValue raw0
          omega
        · intro hcon; exact Bool.noConfusion hcon
        · intro hcon; exact Bool.noConfusion hcon
        · -- sumBound
          have hps : (2:Nat) ^ (w + 1) ≤ 2 ^ (E + 1) :=
            Nat.pow_le_pow_right (by norm_num) (by omega)
          calc st.mergeSum + 2 ^ (w + 1) ≤
              (16 - (rest.length + 1)) * 2 ^ (E + 1) + 2 ^ (E + 1) := by omega
          _ ≤ (16 - rest.length) * 2 ^ (E + 1) := hsum_mono
        · -- scoreOk
          intro hE9
          have hsc := scoreOk hE9
          have hpw1 : (2:Nat) ^ (w + 1) ≤ 1024 := by
            calc (2:Nat) ^ (w + 1) ≤ 2 ^ 10 :=
              Nat.pow_le_pow_right (by norm_num) (by omega)
            _ = 1024 := by norm_num
          have hms : st.mergeSum ≤ 15360 := by
            have hB : (2:Nat) ^ (E + 1) ≤ 1024 := by
              calc (2:Nat) ^ (E + 1) ≤ 2 ^ 10 :=
                Nat.pow_le_pow_right (by norm_num) (by omega)
              _ = 1024 := by norm_num
            calc st.mergeSum ≤ (16 - (rest.length + 1)) * 2 ^ (E + 1) := hsumStep
            _ ≤ 15 * 1024 := Nat.mul_le_mul (by omega) hB
            _ = 15360 := by norm_num
          have h2w : (2:Int) * 2 ^ w = ((2 ^ (w + 1) : Nat) : Int) := by
            push_cast
            rw [pow_succ]
            ring
          have ht1 : toInt16 (2 * 2 ^ w) = ((2 ^ (w + 1) : Nat) : Int) := by
            rw [h2w]
            apply toInt16_eq_self
            · exact le_trans (by norm_num) (Int.natCast_nonneg _)
            · have : ((2 ^ (w + 1) : Nat) : Int) ≤ 1024 := by exact_mod_cast hpw1
              omega
          cases hmv : st.moved with
          | false =>
            have hs0 : st.mergeSum = 0 := notMovedSum hmv
            rw [hmv] at hsc
            simp at hsc
            have : st.score < 0 := by rw [hsc]; norm_num
            simp only [if_pos this, if_true, ht1, hs0]
            push_cast
            ring
          | true =>
            have hge : (0:Int) ≤ st.score := by
              rw [hmv] at hsc
              simp at hsc
              rw [hsc]
              exact Int.natCast_nonneg _
            rw [if_neg (by omega)]
            rw [hmv] at hsc
            simp at hsc
            simp only [if_true]
            rw [hsc, ht1]
            rw [show ((st.mergeSum : Int) + ((2 ^ (w + 1) : Nat) : Int)) =
              ((st.mergeSum + 2 ^ (w + 1) : Nat) : Int) by push_cast; ring]
            apply toInt16_eq_self
            · exact le_trans (by norm_num) (Int.natCast_nonneg _)
            · have hn : st.mergeSum + 2 ^ (w + 1) ≤ 16384 := by omega
              have : ((st.mergeSum + 2 ^ (w + 1) : Nat) : Int) ≤ 16384 := by
                exact_mod_cast hn
              omega
      · -- translate
        push_neg at hov
        rw [processCell_translate hv0 hflne hov]
        have hv15 : fillExponents raw0 cur.1 cur.2 ≤ 15 := by omega
        have hraw1_lt : setValue st.raw fl.1 fl.2 (fillExponents raw0 cur.1 cur.2) < 2 ^ 64 :=
          setValue_lt rawLt _ _ _
        refine ⟨setValue_lt hraw1_lt _ _ _, ?_, ?_, ?_, ?_, ?_, ?_⟩
        · intro y hy
          have hyin := hrest_in y hy
          have hy_ne_cur : (cur.1, cur.2) ≠ (y.1, y.2) := by
            intro hcon
            apply hcur_rest
            have : cur = y := by
              calc cur = (cur.1, cur.2) := rfl
              _ = (y.1, y.2) := hcon
              _ = y := rfl
            rw [this]; exact hy
          have hy_ne_fl : (fl.1, fl.2) ≠ (y.1, y.2) := by
            intro hcon
            apply hfl_rest
            have : fl = y := by
              calc fl = (fl.1, fl.2) := rfl
              _ = (y.1, y.2) := hcon
              _ = y := rfl
            rw [this]; exact hy
          rw [getExp_setValue_other hraw1_lt hcur hyin hy_ne_cur (by omega),
            getExp_setValue_other rawLt hflin hyin hy_ne_fl hv15]
          exact pristine y (List.mem_cons_of_mem cur hy)
        · -- total
          have h1 := totalValue_setValue rawLt hflin hv15
          have h2 := totalValue_setValue hraw1_lt hcur (show (0:Nat) ≤ 15 by norm_num)
          rw [getExp_setValue_other rawLt hflin hcur hflne2 hv15] at h2
          rw [hcur_pristine] at h2
          rw [hov] at h1
          have htv0 : tileVal 0 = 0 := by unfold tileVal; rw [if_pos rfl]
          rw [htv0] at h1 h2
          have htvv : tileVal (fillExponents raw0 cur.1 cur.2) =
              2 ^ (fillExponents raw0 cur.1 cur.2) := by
            unfold tileVal; rw [if_neg hv0]
          rw [htvv] at h1 h2
          show totalValue (setValue (setValue st.raw fl.1 fl.2
            (fillExponents raw0 cur.1 cur.2)) cur.1 cur.2 0) = totalValue raw0
          omega
        · intro hcon; exact Bool.noConfusion hcon
        · intro hcon; exact Bool.noConfusion hcon
        · exact le_trans hsumStep hjk
        · intro hE9
          have hsc := scoreOk hE9
          cases hmv : st.moved with
          | false =>
            rw [hmv] at hsc
            simp at hsc
            have : st.score < 0 := by rw [hsc]; norm_num
            simp only [if_pos this, if_true]
            rw [notMovedSum hmv]
            norm_num
          | true =>
            have hge : (0:Int) ≤ st.score := by
              rw [hmv] at hsc
              simp at hsc
              rw [hsc]
              exact Int.natCast_nonneg _
            rw [if_neg (by omega)]
            rw [hmv] at hsc
            simp at hsc
            simp only [if_true]
            rw [hsc]
            have hms : st.mergeSum ≤ 15360 := by
              have hB : (2:Nat) ^ (E + 1) ≤ 1024 := by
                calc (2:Nat) ^ (E + 1) ≤ 2 ^ 10 :=
                  Nat.pow_le_pow_right (by norm_num) (by omega)
                _ = 1024 := by norm_num
              calc st.mergeSum ≤ (16 - (rest.length + 1)) * 2 ^ (E + 1) := hsumStep
              _ ≤ 15 * 1024 := Nat.mul_le_mul (by omega) hB
              _ = 15360 := by norm_num
            rw [add_zero]
            apply toInt16_eq_self
            · have := Int.natCast_nonneg st.mergeSum
              omega
            · have : ((st.mergeSum : Int)) ≤ 15360 := by exact_mod_cast hms
              omega

theorem moveFold_inv
    (raw0 E : Nat) (hraw0 : raw0 < 2 ^ 64) (hE14 : E ≤ 14)
    (hE : ∀ r c : Int, inR r c → getExponentValue raw0 r c ≤ E)
    (vr vc : Int) (ord : Int × Int → Int × Int → Prop)
    (hspec : fflSpecP vr vc ord) (hirr : ∀ x, ¬ ord x x) :
    ∀ (l : List (Int × Int)) (st : MState),
      (∀ y ∈ l, inR y.1 y.2) → l.Pairwise (fun a b => ¬ ord b a) → l.Nodup →
      l.length ≤ 16 → MoveInv raw0 E st l →
      MoveInv raw0 E (l.foldl (processCell (fillExponents raw0) vr vc) st) [] := by
  intro l
  induction l with
  | nil => intro st _ _ _ _ h; exact h
  | cons cur rest ih =>
    intro st hin hpw hnd hlen hinv
    simp only [List.foldl_cons]
    apply ih
    · intro y hy; exact hin y (List.mem_cons_of_mem cur hy)
    · exact (List.pairwise_cons.mp hpw).2
    · exact (List.nodup_cons.mp hnd).2
    · simp only [List.length_cons] at hlen; omega
    · exact moveInv_step raw0 E hraw0 hE14 hE vr vc ord hspec cur rest
        (hin cur (List.mem_cons_self cur rest))
        (fun y hy => hin y (List.mem_cons_of_mem cur hy))
        (List.pairwise_cons.mp hpw).1
        (List.nodup_cons.mp hnd).1
        (hirr cur)
        (by simp only [List.length_cons] at hlen; omega)
        st hinv

theorem moveInit_inv (raw0 E : Nat) (hraw0 : raw0 < 2 ^ 64)
    (l : List (Int × Int)) :
    MoveInv raw0 E ⟨raw0, fun _ _ => false, -1, false, 0⟩ l :=
  ⟨hraw0, fun _ _ => rfl, rfl, fun _ => rfl, fun _ => rfl, Nat.zero_le _,
    fun _ => rfl⟩

theorem moveFull_inv (raw0 E : Nat) (hraw0 : raw0 < 2 ^ 64) (hE14 : E ≤ 14)
    (hE : ∀ r c : Int, inR r c → getExponentValue raw0 r c ≤ E) :
    ∀ m ∈ [Move.UP, Move.DOWN, Move.LEFT, Move.RIGHT],
      MoveInv raw0 E (moveFull raw0 m) [] := by
  intro m hm
  fin_cases hm
  · exact moveFold_inv raw0 E hraw0 hE14 hE (-1) 0 ordUP fflSpec_UP
      (fun x => by unfold ordUP; omega)
      (traversal Move.UP) ⟨raw0, fun _ _ => false, -1, false, 0⟩
      (by decide) (by decide) (by decide) (by decide) (moveInit_inv raw0 E hraw0 _)
  · exact moveFold_inv raw0 E hraw0 hE14 hE 1 0 ordDOWN fflSpec_DOWN
      (fun x => by unfold ordDOWN; omega)
      (traversal Move.DOWN) ⟨raw0, fun _ _ => false, -1, false, 0⟩
      (by decide) (by decide) (by decide) (by decide) (moveInit_inv raw0 E hraw0 _)
  · exact moveFold_inv raw0 E hraw0 hE14 hE 0 (-1) ordLEFT fflSpec_LEFT
      (fun x => by unfold ordLEFT; omega)
      (traversal Move.LEFT) ⟨raw0, fun _ _ => false, -1, false, 0⟩
      (by decide) (by decide) (by decide) (by decide) (moveInit_inv raw0 E hraw0 _)
  · exact moveFold_inv raw0 E hraw0 hE14 hE 0 1 ordRIGHT fflSpec_RIGHT
      (fun x => by unfold ordRIGHT; omega)
      (traversal Move.RIGHT) ⟨raw0, fun _ _ => false, -1, false, 0⟩
      (by decide) (by decide) (by decide) (by decide) (moveInit_inv raw0 E hraw0 _)

/-- C10: on boards all of whose cell exponents are at most 14, every slide
preserves the total of tile values over the grid, valid or not: translation
moves a value unchanged and a merge replaces two equal values v by one 2v. -/
theorem C10_total_preserved (raw : Nat) (hraw : raw < 2 ^ 64)
    (hE : ∀ cell ∈ cells16, getExponentValue raw cell.1 cell.2 ≤ 14)
    (m : Move) (hm : m ∈ [Move.UP, Move.DOWN, Move.LEFT, Move.RIGHT]) :
    totalValue (moveFull raw m).raw = totalValue raw :=
  (moveFull_inv raw 14 hraw (le_refl 14)
    (fun r c h => hE (r, c) (mem_cells16 h)) m hm).total

/-- Witness for C10 on the board [16384, 16384, 8, 0, ...] slid LEFT. -/
theorem C10_total_preserved_witness :
    packExps [14, 14, 3] < 2 ^ 64 ∧
    (∀ cell ∈ cells16,
      getExponentValue (packExps [14, 14, 3]) cell.1 cell.2 ≤ 14) ∧
    Move.LEFT ∈ [Move.UP, Move.DOWN, Move.LEFT, Move.RIGHT] ∧
    totalValue (moveFull (packExps [14, 14, 3]) Move.LEFT).raw =
      totalValue (packExps [14, 14, 3]) := by
  exact ⟨by decide, by decide, by decide,
    C10_total_preserved _ (by decide) (by decide) _ (by decide)⟩

/-- C1 amended: on boards all of whose cell exponents are at most 9 (so the
int16_t score cannot overflow), Board::move returns a negative sentinel iff no
tile moved and no merge occurred, in which case the packed word is unchanged;
on any valid slide it returns a non-negative delta equal to the sum of the
post-merge tile values created by that slide (0 when tiles moved but nothing
merged).  (The exponent bound is the only change from the claim, forced by the
int16_t wrap counterexample.) -/
theorem C1_amended (raw : Nat) (hraw : raw < 2 ^ 64)
    (hE : ∀ cell ∈ cells16, getExponentValue raw cell.1 cell.2 ≤ 9)
    (m : Move) (hm : m ∈ [Move.UP, Move.DOWN, Move.LEFT, Move.RIGHT]) :
    ((moveFull raw m).score < 0 ↔ (moveFull raw m).moved = false) ∧
    ((moveFull raw m).moved = false → (moveFull raw m).raw = raw) ∧
    ((moveFull raw m).moved = true →
      0 ≤ (moveFull raw m).score ∧
      (moveFull raw m).score = ((moveFull raw m).mergeSum : Int)) := by
  have inv := moveFull_inv raw 9 hraw (by norm_num)
    (fun r c h => hE (r, c) (mem_cells16 h)) m hm
  have hsc := inv.scoreOk (le_refl 9)
  refine ⟨?_, inv.notMovedRaw, ?_⟩
  · cases hmv : (moveFull raw m).moved with
    | false =>
      rw [hmv] at hsc
      simp at hsc
      constructor
      · intro _; rfl
      · intro _; rw [hsc]; norm_num
    | true =>
      rw [hmv] at hsc
      simp at hsc
      constructor
      · intro hlt
        exfalso
        rw [hsc] at hlt
        have := Int.natCast_nonneg (moveFull raw m).mergeSum
        omega
      · intro hcon; exact Bool.noConfusion hcon
  · intro hmv
    rw [hmv] at hsc
    simp at hsc
    have := Int.natCast_nonneg (moveFull raw m).mergeSum
    exact ⟨by omega, hsc⟩

/-- Witness for C1 amended on the board [2, 2, 0, ...] slid LEFT. -/
theorem C1_amended_witness :
    packExps [1, 1] < 2 ^ 64 ∧
    (∀ cell ∈ cells16, getExponentValue (packExps [1, 1]) cell.1 cell.2 ≤ 9) ∧
    Move.LEFT ∈ [Move.UP, Move.DOWN, Move.LEFT, Move.RIGHT] ∧
    (((moveFull (packExps [1, 1]) Move.LEFT).score < 0 ↔
        (moveFull (packExps [1, 1]) Move.LEFT).moved = false) ∧
      ((moveFull (packExps [1, 1]) Move.LEFT).moved = false →
        (moveFull (packExps [1, 1]) Move.LEFT).raw = packExps [1, 1]) ∧
      ((moveFull (packExps [1, 1]) Move.LEFT).moved = true →
        0 ≤ (moveFull (packExps [1, 1]) Move.LEFT).score ∧
        (moveFull (packExps [1, 1]) Move.LEFT).score =
          ((moveFull (packExps [1, 1]) Move.LEFT).mergeSum : Int))) := by
  exact ⟨by decide, by decide, by decide,
    C1_amended _ (by decide) (by decide) _ (by decide)⟩

/-! ## Successor invariants and heuristic range -/

theorem processCell_raw_lt {values : Int → Int → Nat} {vr vc : Int}
    {st : MState} {cell : Int × Int} (h : st.raw < 2 ^ 64) :
    (processCell values vr vc st cell).raw < 2 ^ 64 := by
  unfold processCell
  dsimp only
  split_ifs <;>
    first
    | exact h
    | exact setValue_lt (setValue_lt h _ _ _) _ _ _

theorem foldl_raw_lt {values : Int → Int → Nat} {vr vc : Int} :
    ∀ (l : List (Int × Int)) (st : MState), st.raw < 2 ^ 64 →
      (l.foldl (processCell values vr vc) st).raw < 2 ^ 64 := by
  intro l
  induction l with
  | nil => intro st h; exact h
  | cons x xs ih => intro st h; exact ih _ (processCell_raw_lt h)

theorem moveFull_raw_lt {raw : Nat} (h : raw < 2 ^ 64) (m : Move) :
    (moveFull raw m).raw < 2 ^ 64 :=
  foldl_raw_lt _ _ h

/-- Successors of a HUMAN node are RANDOM nodes and vice versa; board and
score invariants are preserved. -/
theorem succ_invariants {n s : Node} (hs : s ∈ n.getSuccessors)
    (hb : n.board < 2 ^ 64) (hsc : n.score < 2 ^ 16) :
    s.board < 2 ^ 64 ∧ s.score < 2 ^ 16 ∧
    s.player = (if n.player = Player.HUMAN then Player.RANDOM else Player.HUMAN) := by
  unfold Node.getSuccessors at hs
  by_cases h2048 : n.has2048
  · rw [if_pos h2048] at hs; cases hs
  · rw [if_neg h2048] at hs
    cases hp : n.player with
    | RANDOM =>
      rw [hp] at hs
      simp only [List.mem_flatMap] at hs
      obtain ⟨cell, _, hmem⟩ := hs
      split_ifs at hmem
      · simp only [List.mem_cons, List.mem_singleton] at hmem
        rcases hmem with h | h | h
        · rw [h]; exact ⟨setValue_lt hb _ _ _, hsc, by simp [spawnSucc]⟩
        · rw [h]; exact ⟨setValue_lt hb _ _ _, hsc, by simp [spawnSucc]⟩
        · cases h
      · cases hmem
    | HUMAN =>
      rw [hp] at hs
      simp only [List.mem_flatMap] at hs
      obtain ⟨mv, _, hmem⟩ := hs
      split_ifs at hmem
      · simp only [List.mem_singleton] at hmem
        rw [hmem]
        exact ⟨moveFull_raw_lt hb mv, Nat.mod_lt _ (by norm_num), by simp⟩
      · cases hmem

/-- Numeric range of the heuristic: between 0 and 65535 * 2^47 + 32220, for a
node with a uint16 score. -/
theorem getHeuristic_bounds (n : Node) (hsc : n.score < 2 ^ 16) :
    0 ≤ n.getHeuristic ∧ n.getHeuristic ≤ 65535 * 2 ^ 47 + 32220 := by
  obtain ⟨hlo, hhi⟩ := heuristicStats_bounds n.board
  by_cases hlost : n.isGameOver = true ∧ ¬ n.has2048 = true
  · have : n.getHeuristic = 0 := by
      unfold Node.getHeuristic
      rw [if_pos hlost]
    rw [this]
    norm_num
  · rw [getHeuristic_expand n hlost]
    have hbase : 0 ≤ (if n.isGameOver = true then (n.score : Int) * 2 ^ 47 else 0) ∧
        (if n.isGameOver = true then (n.score : Int) * 2 ^ 47 else 0) ≤
          65535 * 2 ^ 47 := by
      split_ifs
      · constructor
        · positivity
        · have h1 : (n.score : Int) ≤ 65535 := by exact_mod_cast Nat.lt_succ_iff.mp hsc
          nlinarith
      · norm_num
    omega

/-! ## foldl max / min helper lemmas -/

theorem foldl_max_pair (g : Node → Int) :
    ∀ (l : List Node) (a c : Int),
      l.foldl (fun x s => max x (g s)) (max a c) =
        max a (l.foldl (fun x s => max x (g s)) c) := by
  intro l
  induction l with
  | nil => intro a c; rfl
  | cons s t ih =>
    intro a c
    simp only [List.foldl_cons]
    rw [max_assoc, ih]

theorem foldl_min_pair (g : Node → Int) :
    ∀ (l : List Node) (a c : Int),
      l.foldl (fun x s => min x (g s)) (min a c) =
        min a (l.foldl (fun x s => min x (g s)) c) := by
  intro l
  induction l with
  | nil => intro a c; rfl
  | cons s t ih =>
    intro a c
    simp only [List.foldl_cons]
    rw [min_assoc, ih]

theorem le_foldl_max (g : Node → Int) :
    ∀ (l : List Node) (a : Int), a ≤ l.foldl (fun x s => max x (g s)) a := by
  intro l
  induction l with
  | nil => intro a; exact le_refl a
  | cons s t ih =>
    intro a
    simp only [List.foldl_cons]
    exact le_trans (le_max_left a (g s)) (ih _)

theorem foldl_min_le (g : Node → Int) :
    ∀ (l : List Node) (a : Int), l.foldl (fun x s => min x (g s)) a ≤ a := by
  intro l
  induction l with
  | nil => intro a; exact le_refl a
  | cons s t ih =>
    intro a
    simp only [List.foldl_cons]
    exact le_trans (ih _) (min_le_left a (g s))

theorem foldl_max_le (g : Node → Int) {M : Int} :
    ∀ (l : List Node) (a : Int), (∀ s ∈ l, g s ≤ M) → a ≤ M →
      l.foldl (fun x s => max x (g s)) a ≤ M := by
  intro l
  induction l with
  | nil => intro a _ h; exact h
  | cons s t ih =>
    intro a hl ha
    simp only [List.foldl_cons]
    exact ih _ (fun x hx => hl x (List.mem_cons_of_mem s hx))
      (max_le ha (hl s (List.mem_cons_self s t)))

theorem le_foldl_min (g : Node → Int) {M : Int} :
    ∀ (l : List Node) (a : Int), (∀ s ∈ l, M ≤ g s) → M ≤ a →
      M ≤ l.foldl (fun x s => min x (g s)) a := by
  intro l
  induction l with
  | nil => intro a _ h; exact h
  | cons s t ih =>
    intro a hl ha
    simp only [List.foldl_cons]
    exact ih _ (fun x hx => hl x (List.mem_cons_of_mem s hx))
      (le_min ha (hl s (List.mem_cons_self s t)))

theorem mem_le_foldl_max (g : Node → Int) :
    ∀ (l : List Node) (a : Int) (s : Node), s ∈ l →
      g s ≤ l.foldl (fun x s => max x (g s)) a := by
  intro l
  induction l with
  | nil => intro a s h; cases h
  | cons x t ih =>
    intro a s hs
    simp only [List.foldl_cons]
    rcases List.mem_cons.mp hs with h | h
    · rw [← h] at *
      exact le_trans (le_max_right a (g s)) (le_foldl_max g t _)
    · exact ih _ s h

theorem foldl_min_le_mem (g : Node → Int) :
    ∀ (l : List Node) (a : Int) (s : Node), s ∈ l →
      l.foldl (fun x s => min x (g s)) a ≤ g s := by
  intro l
  induction l with
  | nil => intro a s h; cases h
  | cons x t ih =>
    intro a s hs
    simp only [List.foldl_cons]
    rcases List.mem_cons.mp hs with h | h
    · rw [← h] at *
      exact le_trans (foldl_min_le g t _) (min_le_right a (g s))
    · exact ih _ s h

/-- Range of minimax values: every value is a heuristic of some node with the
board/score invariants, hence within the heuristic range. -/
theorem minimax_bounds :
    ∀ (fuel : Nat) (n : Node) (d depth : Nat), n.board < 2 ^ 64 → n.score < 2 ^ 16 →
      0 ≤ minimax fuel n d depth ∧ minimax fuel n d depth ≤ 65535 * 2 ^ 47 + 32220 := by
  intro fuel
  induction fuel with
  | zero =>
    intro n d depth hb hs
    exact getHeuristic_bounds n hs
  | succ f ih =>
    intro n d depth hb hs
    unfold minimax
    split_ifs with hleaf
    · exact getHeuristic_bounds n hs
    · push_neg at hleaf
      obtain ⟨hd, hne⟩ := hleaf
      cases hp : n.player with
      | HUMAN =>
        simp only
        obtain ⟨s0, t0, hst⟩ := List.exists_cons_of_ne_nil hne
        have hmem0 : s0 ∈ n.getSuccessors := by rw [hst]; exact List.mem_cons_self _ _
        obtain ⟨hb0, hs0, _⟩ := succ_invariants hmem0 hb hs
        constructor
        · calc (0:Int) ≤ minimax f s0 d depth := (ih s0 d depth hb0 hs0).1
          _ ≤ _ := mem_le_foldl_max _ _ _ _ hmem0
        · apply foldl_max_le
          · intro s hsm
            obtain ⟨hbs, hss, _⟩ := succ_invariants hsm hb hs
            exact (ih s d depth hbs hss).2
          · unfold IntMin
            norm_num
      | RANDOM =>
        simp only
        obtain ⟨s0, t0, hst⟩ := List.exists_cons_of_ne_nil hne
        have hmem0 : s0 ∈ n.getSuccessors := by rw [hst]; exact List.mem_cons_self _ _
        obtain ⟨hb0, hs0, _⟩ := succ_invariants hmem0 hb hs
        constructor
        · apply le_foldl_min
          · intro s hsm
            obtain ⟨hbs, hss, _⟩ := succ_invariants hsm hb hs
            exact (ih s d (depth + 1) hbs hss).1
          · unfold IntMax
            norm_num
        · calc _ ≤ minimax f s0 d (depth + 1) := foldl_min_le_mem _ _ _ _ hmem0
          _ ≤ _ := (ih s0 d (depth + 1) hb0 hs0).2

/-- When the predicate never aborts, no alphabeta result carries ABORT. -/
theorem ab_tc_ne_abort (pred : Node → Nat → TerminationCondition)
    (hpred : ∀ n k, pred n k ≠ TerminationCondition.ABORT) :
    ∀ (fuel : Nat) (n : Node) (depth : Nat) (alpha beta : Int),
      (alphabeta fuel n pred depth alpha beta).tc ≠ TerminationCondition.ABORT := by
  intro fuel
  induction fuel with
  | zero =>
    intro n depth alpha beta
    simp [alphabeta]
  | succ f ih =>
    intro n depth alpha beta
    unfold alphabeta
    by_cases h1 : pred n depth = TerminationCondition.ABORT
    · exact absurd h1 (hpred n depth)
    rw [if_neg h1]
    by_cases h2 : pred n depth = TerminationCondition.END ∨ n.isGameOver = true
    · rw [if_pos h2]
      simp only
      intro hcon
      rw [hcon] at h1
      exact h1 rfl
    rw [if_neg h2]
    by_cases h3 : n.player = Player.HUMAN
    · rw [if_pos h3]
      -- HUMAN loop
      have hloop : ∀ (l : List Node) (a : Int) (bm : MoveType) (bv : Int) (pr : Nat),
          (abLoopH (fun s x => alphabeta f s pred depth x beta) beta l a bm bv pr).tc ≠
            TerminationCondition.ABORT := by
        intro l
        induction l with
        | nil => intro a bm bv pr; simp [abLoopH]
        | cons s t ihl =>
          intro a bm bv pr
          unfold abLoopH
          dsimp only
          by_cases ha : (alphabeta f s pred depth a beta).tc = TerminationCondition.ABORT
          · exact absurd ha (ih s depth a beta)
          rw [if_neg ha]
          by_cases hb2 : beta ≤ max a (alphabeta f s pred depth a beta).value
          · rw [if_pos hb2]; simp
          · rw [if_neg hb2]; exact ihl _ _ _ _
      exact hloop _ _ _ _ _
    · rw [if_neg h3]
      -- RANDOM loop
      have hloop : ∀ (l : List Node) (b : Int) (pr : Nat),
          (abLoopR (fun s x => alphabeta f s pred (depth + 1) alpha x) alpha l b pr).tc ≠
            TerminationCondition.ABORT := by
        intro l
        induction l with
        | nil => intro b pr; simp [abLoopR]
        | cons s t ihl =>
          intro b pr
          unfold abLoopR
          dsimp only
          by_cases hb1 : (alphabeta f s pred (depth + 1) alpha b).tc =
              TerminationCondition.ABORT
          · exact absurd hb1 (ih s (depth + 1) alpha b)
          rw [if_neg hb1]
          by_cases hb2 : min b (alphabeta f s pred (depth + 1) alpha b).value ≤ alpha
          · rw [if_pos hb2]; simp
          · rw [if_neg hb2]; exact ihl _ _
      exact hloop _ _ _

theorem depthPred_ne_abort (d : Nat) :
    ∀ (n : Node) (k : Nat), depthPred d n k ≠ TerminationCondition.ABORT := by
  intro n k
  unfold depthPred
  split_ifs <;> simp

theorem abLoopH_spec (f d depth : Nat) (beta : Int) (hih : ABGood f d)
    (hbetaMax : beta ≤ IntMax) :
    ∀ (l : List Node),
      (∀ s ∈ l, s.board < 2 ^ 64 ∧ s.score < 2 ^ 16 ∧ s.player = Player.RANDOM) →
      2 * (d - depth) + 1 ≤ f →
      ∀ (alpha : Int) (bm : MoveType) (bv : Int) (pr : Nat),
        alpha < beta → IntMin ≤ alpha →
        (l.foldl (fun x s => max x (minimax f s d depth)) alpha < beta →
          (abLoopH (fun s x => alphabeta f s (depthPred d) depth x beta) beta
              l alpha bm bv pr).value =
            l.foldl (fun x s => max x (minimax f s d depth)) alpha) ∧
        (beta ≤ l.foldl (fun x s => max x (minimax f s d depth)) alpha →
          beta ≤ (abLoopH (fun s x => alphabeta f s (depthPred d) depth x beta) beta
              l alpha bm bv pr).value) := by
  intro l
  induction l with
  | nil =>
    intro _ _ alpha bm bv pr hab hMin
    simp only [List.foldl_nil]
    constructor
    · intro _; rfl
    · intro hcon; exfalso; omega
  | cons s t ihl =>
    intro hinv hfuel alpha bm bv pr hab hMin
    obtain ⟨hbs, hss, hps⟩ := hinv s (List.mem_cons_self s t)
    have htinv : ∀ x ∈ t, x.board < 2 ^ 64 ∧ x.score < 2 ^ 16 ∧
        x.player = Player.RANDOM :=
      fun x hx => hinv x (List.mem_cons_of_mem s hx)
    have hsfuel : 2 * (d - depth) +
        (if s.player = Player.HUMAN then 2 else 1) ≤ f := by
      rw [hps]; simpa using hfuel
    have habc := hih s depth alpha beta hbs hss hsfuel hab hMin hbetaMax
    have htc : (alphabeta f s (depthPred d) depth alpha beta).tc ≠
        TerminationCondition.ABORT :=
      ab_tc_ne_abort (depthPred d) (depthPred_ne_abort d) f s depth alpha beta
    unfold abLoopH
    dsimp only
    rw [if_neg htc]
    simp only [List.foldl_cons]
    by_cases hvs_a : minimax f s d depth ≤ alpha
    · have hav : (alphabeta f s (depthPred d) depth alpha beta).value ≤ alpha :=
        habc.1 hvs_a
      have hmax_av : max alpha (alphabeta f s (depthPred d) depth alpha beta).value =
          alpha := max_eq_left hav
      have hmax_vs : max alpha (minimax f s d depth) = alpha := max_eq_left hvs_a
      rw [hmax_av, if_neg (by omega), hmax_vs]
      exact ihl htinv hfuel alpha _ _ _ hab hMin
    · push_neg at hvs_a
      by_cases hvs_b : minimax f s d depth < beta
      · have hav : (alphabeta f s (depthPred d) depth alpha beta).value =
            minimax f s d depth := habc.2.2 hvs_a hvs_b
        have hmax_vs : max alpha (minimax f s d depth) = minimax f s d depth :=
          max_eq_right (le_of_lt hvs_a)
        rw [hav, hmax_vs, if_neg (by omega)]
        exact ihl htinv hfuel _ _ _ _ hvs_b (le_trans hMin (le_of_lt hvs_a))
      · push_neg at hvs_b
        have hav : beta ≤ (alphabeta f s (depthPred d) depth alpha beta).value :=
          habc.2.1 hvs_b
        rw [if_pos (le_trans hav (le_max_right _ _))]
        have hfold : max alpha (minimax f s d depth) ≤
            t.foldl (fun x s => max x (minimax f s d depth))
              (max alpha (minimax f s d depth)) := le_foldl_max _ _ _
        constructor
        · intro hcon
          exfalso
          have : beta ≤ max alpha (minimax f s d depth) :=
            le_trans hvs_b (le_max_right _ _)
          omega
        · intro _
          exact le_trans hav (le_max_right _ _)

theorem abLoopR_spec (f d depth : Nat) (alpha : Int) (hih : ABGood f d)
    (hMin : IntMin ≤ alpha) :
    ∀ (l : List Node),
      (∀ s ∈ l, s.board < 2 ^ 64 ∧ s.score < 2 ^ 16 ∧ s.player = Player.HUMAN) →
      2 * (d - (depth + 1)) + 2 ≤ f →
      ∀ (beta : Int) (pr : Nat),
        alpha < beta → beta ≤ IntMax →
        (alpha < l.foldl (fun x s => min x (minimax f s d (depth + 1))) beta →
          (abLoopR (fun s x => alphabeta f s (depthPred d) (depth + 1) alpha x) alpha
              l beta pr).value =
            l.foldl (fun x s => min x (minimax f s d (depth + 1))) beta) ∧
        (l.foldl (fun x s => min x (minimax f s d (depth + 1))) beta ≤ alpha →
          (abLoopR (fun s x => alphabeta f s (depthPred d) (depth + 1) alpha x) alpha
              l beta pr).value ≤ alpha) := by
  intro l
  induction l with
  | nil =>
    intro _ _ beta pr hab hMax
    simp only [List.foldl_nil]
    constructor
    · intro _; rfl
    · intro hcon; exfalso; omega
  | cons s t ihl =>
    intro hinv hfuel beta pr hab hMax
    obtain ⟨hbs, hss, hps⟩ := hinv s (List.mem_cons_self s t)
    have htinv : ∀ x ∈ t, x.board < 2 ^ 64 ∧ x.score < 2 ^ 16 ∧
        x.player = Player.HUMAN :=
      fun x hx => hinv x (List.mem_cons_of_mem s hx)
    have hsfuel : 2 * (d - (depth + 1)) +
        (if s.player = Player.HUMAN then 2 else 1) ≤ f := by
      rw [hps]; simpa using hfuel
    have habc := hih s (depth + 1) alpha beta hbs hss hsfuel hab hMin hMax
    have htc : (alphabeta f s (depthPred d) (depth + 1) alpha beta).tc ≠
        TerminationCondition.ABORT :=
      ab_tc_ne_abort (depthPred d) (depthPred_ne_abort d) f s (depth + 1) alpha beta
    unfold abLoopR
    dsimp only
    rw [if_neg htc]
    simp only [List.foldl_cons]
    by_cases hvs_b : beta ≤ minimax f s d (depth + 1)
    · have hbv : beta ≤ (alphabeta f s (depthPred d) (depth + 1) alpha beta).value :=
        habc.2.1 hvs_b
      have hmin_bv : min beta (alphabeta f s (depthPred d) (depth + 1) alpha beta).value =
          beta := min_eq_left hbv
      have hmin_vs : min beta (minimax f s d (depth + 1)) = beta := min_eq_left hvs_b
      rw [hmin_bv, if_neg (by omega), hmin_vs]
      exact ihl htinv hfuel beta _ hab hMax
    · push_neg at hvs_b
      by_cases hvs_a : alpha < minimax f s d (depth + 1)
      · have hbv : (alphabeta f s (depthPred d) (depth + 1) alpha beta).value =
            minimax f s d (depth + 1) := habc.2.2 hvs_a hvs_b
        have hmin_vs : min beta (minimax f s d (depth + 1)) =
            minimax f s d (depth + 1) := min_eq_right (le_of_lt hvs_b)
        rw [hbv, hmin_vs, if_neg (by omega)]
        exact ihl htinv hfuel _ _ hvs_a (le_trans (le_of_lt hvs_b) hMax)
      · push_neg at hvs_a
        have hbv : (alphabeta f s (depthPred d) (depth + 1) alpha beta).value ≤ alpha :=
          habc.1 hvs_a
        rw [if_pos (le_trans (min_le_right _ _) hbv)]
        have hfold : t.foldl (fun x s => min x (minimax f s d (depth + 1)))
            (min beta (minimax f s d (depth + 1))) ≤
            min beta (minimax f s d (depth + 1)) := foldl_min_le _ _ _
        constructor
        · intro hcon
          exfalso
          have : min beta (minimax f s d (depth + 1)) ≤ alpha :=
            le_trans (min_le_right _ _) hvs_a
          omega
        · intro _
          exact le_trans (min_le_right _ _) hbv

theorem ab_good : ∀ (fuel d : Nat), ABGood fuel d := by
  intro fuel
  induction fuel with
  | zero =>
    intro d n depth alpha beta _ _ hfuel _ _ _
    exfalso
    split_ifs at hfuel <;> omega
  | succ f ih =>
    intro d n depth alpha beta hb hs hfuel hab hMin hMax
    by_cases hdep : d ≤ depth
    · -- END leaf: both sides return the heuristic
      have hpred : depthPred d n depth = TerminationCondition.END := by
        unfold depthPred; rw [if_pos hdep]
      have hmm : minimax (f + 1) n d depth = n.getHeuristic := by
        unfold minimax; rw [if_pos (Or.inl hdep)]
      have hvv : (alphabeta (f + 1) n (depthPred d) depth alpha beta).value =
          n.getHeuristic := by
        unfold alphabeta
        rw [hpred]
        rw [if_neg (by decide), if_pos (Or.inl rfl)]
      rw [hmm, hvv]
      exact ⟨fun h => h, fun h => h, fun _ _ => rfl⟩
    · push_neg at hdep
      have hpredc : depthPred d n depth = TerminationCondition.CONTINUE := by
        unfold depthPred; rw [if_neg (by omega)]
      by_cases hgo : n.getSuccessors = []
      · have hgo2 : n.isGameOver = true := by
          unfold Node.isGameOver; rw [hgo]; rfl
        have hmm : minimax (f + 1) n d depth = n.getHeuristic := by
          unfold minimax; rw [if_pos (Or.inr hgo)]
        have hvv : (alphabeta (f + 1) n (depthPred d) depth alpha beta).value =
            n.getHeuristic := by
          unfold alphabeta
          rw [hpredc]
          rw [if_neg (by decide), if_pos (Or.inr hgo2)]
        rw [hmm, hvv]
        exact ⟨fun h => h, fun h => h, fun _ _ => rfl⟩
      · have hsuccs : ∀ s ∈ n.getSuccessors, s.board < 2 ^ 64 ∧ s.score < 2 ^ 16 :=
          fun s hsm => ⟨(succ_invariants hsm hb hs).1, (succ_invariants hsm hb hs).2.1⟩
        have hgo2 : n.isGameOver = false := by
          unfold Node.isGameOver
          obtain ⟨s0, t0, hst⟩ := List.exists_cons_of_ne_nil hgo
          rw [hst]
          rfl
        have hmm0 : minimax (f + 1) n d depth =
            if d ≤ depth ∨ n.getSuccessors = [] then n.getHeuristic
            else match n.player with
              | Player.HUMAN => n.getSuccessors.foldl
                  (fun acc s => max acc (minimax f s d depth)) IntMin
              | Player.RANDOM => n.getSuccessors.foldl
                  (fun acc s => min acc (minimax f s d (depth + 1))) IntMax := rfl
        have hab0 : alphabeta (f + 1) n (depthPred d) depth alpha beta =
            if depthPred d n depth = TerminationCondition.ABORT then
              ⟨if n.player = Player.HUMAN then alpha else beta, MoveType.GAMEOVER,
                depthPred d n depth, 0⟩
            else if depthPred d n depth = TerminationCondition.END ∨ n.isGameOver then
              ⟨n.getHeuristic, MoveType.GAMEOVER, depthPred d n depth, 0⟩
            else if n.player = Player.HUMAN then
              abLoopH (fun s a => alphabeta f s (depthPred d) depth a beta) beta
                n.getSuccessors alpha MoveType.GAMEOVER IntMin
                n.getSuccessors.length
            else
              abLoopR (fun s b => alphabeta f s (depthPred d) (depth + 1) alpha b)
                alpha n.getSuccessors beta n.getSuccessors.length := rfl
        cases hp : n.player with
        | HUMAN =>
          have hmm : minimax (f + 1) n d depth =
              n.getSuccessors.foldl (fun acc s => max acc (minimax f s d depth))
                IntMin := by
            rw [hmm0, if_neg (by push_neg; exact ⟨by omega, hgo⟩), hp]
          have hvv : alphabeta (f + 1) n (depthPred d) depth alpha beta =
              abLoopH (fun s a => alphabeta f s (depthPred d) depth a beta) beta
                n.getSuccessors alpha MoveType.GAMEOVER IntMin
                n.getSuccessors.length := by
            rw [hab0, hpredc]
            rw [if_neg (by decide), if_neg (by simp [hgo2]), if_pos hp]
          have hsub : ∀ s ∈ n.getSuccessors, s.board < 2 ^ 64 ∧ s.score < 2 ^ 16 ∧
              s.player = Player.RANDOM := by
            intro s hsm
            have h3 := (succ_invariants hsm hb hs).2.2
            rw [hp] at h3
            simp at h3
            exact ⟨(hsuccs s hsm).1, (hsuccs s hsm).2, h3⟩
          have hfuel2 : 2 * (d - depth) + 1 ≤ f := by
            rw [hp] at hfuel; simp at hfuel; omega
          have hloop := abLoopH_spec f d depth beta (ih d) hMax
            n.getSuccessors hsub hfuel2 alpha MoveType.GAMEOVER IntMin
            n.getSuccessors.length hab hMin
          have hsplit : n.getSuccessors.foldl
              (fun x s => max x (minimax f s d depth)) alpha =
              max alpha (n.getSuccessors.foldl
                (fun x s => max x (minimax f s d depth)) IntMin) := by
            conv_lhs => rw [show alpha = max alpha IntMin from (max_eq_left hMin).symm]
            exact foldl_max_pair _ _ _ _
          rw [hmm, hvv]
          refine ⟨?_, ?_, ?_⟩
          · intro hA
            have := hloop.1 (by omega)
            omega
          · intro hB
            have := hloop.2 (by omega)
            omega
          · intro hC1 hC2
            have := hloop.1 (by omega)
            omega
        | RANDOM =>
          have hmm : minimax (f + 1) n d depth =
              n.getSuccessors.foldl
                (fun acc s => min acc (minimax f s d (depth + 1))) IntMax := by
            rw [hmm0, if_neg (by push_neg; exact ⟨by omega, hgo⟩), hp]
          have hvv : alphabeta (f + 1) n (depthPred d) depth alpha beta =
              abLoopR (fun s b => alphabeta f s (depthPred d) (depth + 1) alpha b)
                alpha n.getSuccessors beta n.getSuccessors.length := by
            rw [hab0, hpredc]
            rw [if_neg (by decide), if_neg (by simp [hgo2]),
              if_neg (by rw [hp]; simp)]
          have hsub : ∀ s ∈ n.getSuccessors, s.board < 2 ^ 64 ∧ s.score < 2 ^ 16 ∧
              s.player = Player.HUMAN := by
            intro s hsm
            have h3 := (succ_invariants hsm hb hs).2.2
            rw [hp] at h3
            simp at h3
            exact ⟨(hsuccs s hsm).1, (hsuccs s hsm).2, h3⟩
          have hfuel2 : 2 * (d - (depth + 1)) + 2 ≤ f := by
            rw [hp] at hfuel; simp at hfuel; omega
          have hloop := abLoopR_spec f d depth alpha (ih d) hMin
            n.getSuccessors hsub hfuel2 beta n.getSuccessors.length hab hMax
          have hsplit : n.getSuccessors.foldl
              (fun x s => min x (minimax f s d (depth + 1))) beta =
              min beta (n.getSuccessors.foldl
                (fun x s => min x (minimax f s d (depth + 1))) IntMax) := by
            conv_lhs => rw [show beta = min beta IntMax from (min_eq_left hMax).symm]
            exact foldl_min_pair _ _ _ _
          rw [hmm, hvv]
          refine ⟨?_, ?_, ?_⟩
          · intro hA
            have := hloop.2 (by omega)
            omega
          · intro hB
            have := hloop.1 (by omega)
            omega
          · intro hC1 hC2
            have := hloop.1 (by omega)
            omega

/-- C3: with the predicate returning END exactly at depth ≥ d and the full
int_fast64_t window, alphabeta returns the same value as the plain minimax of
depth d (maximum over a HUMAN node's successors at the same depth, minimum over
a RANDOM node's successors at depth + 1, heuristic at END or terminal nodes). -/
theorem C3_alphabeta_eq_minimax (n : Node) (d fuel : Nat)
    (hb : n.board < 2 ^ 64) (hs : n.score < 2 ^ 16) (hfuel : 2 * d + 2 ≤ fuel) :
    (alphabeta fuel n (depthPred d) 0 IntMin IntMax).value = minimax fuel n d 0 := by
  obtain ⟨h0, h1⟩ := minimax_bounds fuel n d 0 hb hs
  have hg := ab_good fuel d n 0 IntMin IntMax hb hs
    (by split_ifs <;> omega)
    (by unfold IntMin IntMax; norm_num) (le_refl _) (le_refl _)
  apply hg.2.2
  · unfold IntMin
    omega
  · unfold IntMax
    omega

/-- Witness for C3 at a terminal checkerboard node, d = 1. -/
theorem C3_alphabeta_eq_minimax_witness :
    packExps [1,2,1,2, 2,1,2,1, 1,2,1,2, 2,1,2,1] < 2 ^ 64 ∧ (5:Nat) < 2 ^ 16 ∧
    2 * 1 + 2 ≤ 4 ∧
    (alphabeta 4 (Node.mk MoveType.START
        (packExps [1,2,1,2, 2,1,2,1, 1,2,1,2, 2,1,2,1]) Player.HUMAN 5)
      (depthPred 1) 0 IntMin IntMax).value =
      minimax 4 (Node.mk MoveType.START
        (packExps [1,2,1,2, 2,1,2,1, 1,2,1,2, 2,1,2,1]) Player.HUMAN 5) 1 0 := by
  exact ⟨by decide, by norm_num, by norm_num,
    C3_alphabeta_eq_minimax _ 1 4 (by decide) (by norm_num) (by norm_num)⟩

end Game2048


